import Mathlib

/-!
Verification of the wr-elo-rank matchmaking/rating core (`src/App.tsx`).

The embedding translates:
* the Elo rating formula used by `endMatch` (via the `elo-rank` dependency,
  `new EloRank(15)`: `getExpected`/`updateRating`),
* the `endMatch` and `cancelMatch` persistence effects,
* the `suggestTeams` partition search (DFS over candidate indices with the
  anchor-pair constraint for player ids 3 and 7, a `withinTolerance` pool and
  a strictly-best fallback).

JavaScript numbers are modelled as exact arithmetic: integer ratings as `ℤ`,
the fractional `target` and tolerance comparisons as `ℚ`, and the Elo
expected-score computation (`Math.pow(10, x)`) over `ℝ`.  Randomness
(`sampleSize`, the `Math.random()` pick from `withinTolerance`) is modelled by
explicit parameters: the sampled candidate list is passed in, and the random
pick is an arbitrary natural number reduced mod the pool size.
-/

namespace WrElo

/-- A roster row of the `player` table: id, name, Elo rating, win count and
total-games count (`src/types/common.ts`). -/
structure Player where
  id : ℤ
  name : String
  elo : ℤ
  win : ℤ
  total : ℤ
deriving DecidableEq, Inhabited

/-- The `result` column of the `match` table: `'A' | 'B' | 'Cancel'`. -/
inductive MatchResult where
  | A
  | B
  | Cancel
deriving DecidableEq

/-- The winning side passed to `endMatch` (`result: 'A' | 'B'`). -/
inductive Winner where
  | A
  | B
deriving DecidableEq

/-- A row of the `match` table: team membership, creation-time rating
snapshots, optional post-match rating snapshots and the result field. -/
structure Match where
  id : ℤ
  team_a_players : List ℤ
  team_b_players : List ℤ
  team_a_elos : List ℤ
  team_b_elos : List ℤ
  team_a_new_elos : Option (List ℤ)
  team_b_new_elos : Option (List ℤ)
  result : Option MatchResult
deriving DecidableEq

/-! ## Rating formula (the `elo-rank` package, instantiated with K = 15) -/

/-- `EloRank.getExpected(a, b) = 1 / (1 + Math.pow(10, (b - a) / 400))`. -/
noncomputable def getExpected (a b : ℝ) : ℝ :=
  1 / (1 + (10 : ℝ) ^ ((b - a) / 400))

/-- `EloRank.updateRating(expected, actual, current) =
Math.round(current + k * (actual - expected))` with `k = 15`.
JavaScript `Math.round` is `⌊x + 1/2⌋`, which is Mathlib's `round` on `ℝ`. -/
noncomputable def updateRating (expected actual current : ℝ) : ℤ :=
  round (current + 15 * (actual - expected))

/-- `mean` from es-toolkit: sum divided by length. -/
noncomputable def meanL (l : List ℤ) : ℝ :=
  (l.sum : ℝ) / (l.length : ℝ)

/-! ## endMatch -/

/-- `find(players, { id })` from es-toolkit/compat. -/
def findPlayer (players : List Player) (id : ℤ) : Option Player :=
  players.find? (fun p => p.id = id)

/-- New team-A ratings computed by `endMatch`: each player's creation-time
snapshot rating against the mean of team B's creation-time snapshot. -/
noncomputable def teamANewElos (m : Match) (result : Winner) : List ℤ :=
  m.team_a_elos.map (fun (playerAElo : ℤ) =>
    let resultNumber : ℝ := if result = Winner.A then 1 else 0
    let expectedScoreA := getExpected (playerAElo : ℝ) (meanL m.team_b_elos)
    updateRating expectedScoreA resultNumber (playerAElo : ℝ))

/-- New team-B ratings computed by `endMatch`. -/
noncomputable def teamBNewElos (m : Match) (result : Winner) : List ℤ :=
  m.team_b_elos.map (fun (playerBElo : ℤ) =>
    let resultNumber : ℝ := if result = Winner.B then 1 else 0
    let expectedScoreB := getExpected (playerBElo : ℝ) (meanL m.team_a_elos)
    updateRating expectedScoreB resultNumber (playerBElo : ℝ))

/-- New win counts for one team's id list: absent players get `0`, members of
the winning team get `win + 1`, everyone else keeps `win`. -/
def teamNewWins (players : List Player) (ids : List ℤ) (won : Bool) : List ℤ :=
  ids.map (fun id =>
    match findPlayer players id with
    | none => 0
    | some player => if won then player.win + 1 else player.win)

/-- New total-games counts for one team's id list: absent players get `1`,
everyone else `total + 1`. -/
def teamNewTotals (players : List Player) (ids : List ℤ) : List ℤ :=
  ids.map (fun id =>
    match findPlayer players id with
    | none => 1
    | some player => player.total + 1)

/-- A record passed to `upsertPlayers` (`{ id, elo, win, total }`). -/
structure PRec where
  id : ℤ
  elo : ℤ
  win : ℤ
  total : ℤ
deriving DecidableEq

/-- es-toolkit `zipWith` over four lists: truncates to the shortest. -/
def zipWith4 (f : α → β → γ → δ → ε) : List α → List β → List γ → List δ → List ε
  | a :: as, b :: bs, c :: cs, d :: ds => f a b c d :: zipWith4 f as bs cs ds
  | _, _, _, _ => []

/-- The `updatedAPlayers` batch built by `endMatch`. -/
noncomputable def updatedAPlayers (players : List Player) (m : Match) (result : Winner) :
    List PRec :=
  zipWith4 (fun id elo win total => PRec.mk id elo win total)
    m.team_a_players (teamANewElos m result)
    (teamNewWins players m.team_a_players (result = Winner.A))
    (teamNewTotals players m.team_a_players)

/-- The `updatedBPlayers` batch built by `endMatch`. -/
noncomputable def updatedBPlayers (players : List Player) (m : Match) (result : Winner) :
    List PRec :=
  zipWith4 (fun id elo win total => PRec.mk id elo win total)
    m.team_b_players (teamBNewElos m result)
    (teamNewWins players m.team_b_players (result = Winner.B))
    (teamNewTotals players m.team_b_players)

/-- The persistence effect of `endMatch`: the match-row update (result plus
post-match snapshots) and the player upsert batch.  Note that the code reads
nothing from `m.result`: there is no pending-state guard. -/
structure EndMatchEffect where
  newResult : MatchResult
  team_a_new_elos : List ℤ
  team_b_new_elos : List ℤ
  upserts : List PRec
deriving DecidableEq

/-- `endMatch(match, result)`: computes new ratings from the creation-time
snapshots, new win/total counts from the fetched roster, and issues the match
update and the player upsert. -/
noncomputable def endMatch (players : List Player) (m : Match) (result : Winner) :
    EndMatchEffect :=
  { newResult := if result = Winner.A then MatchResult.A else MatchResult.B
    team_a_new_elos := teamANewElos m result
    team_b_new_elos := teamBNewElos m result
    upserts := updatedAPlayers players m result ++ updatedBPlayers players m result }

/-! ## cancelMatch -/

/-- The shared persisted state: the `player` and `match` tables. -/
structure AppState where
  players : List Player
  matchRows : List Match
deriving DecidableEq

/-- `cancelMatch(match)`: `update({ result: 'Cancel' }).eq('id', match.id)` —
it touches only the `result` column of the matching row and issues no player
write. -/
def cancelMatchS (s : AppState) (m : Match) : AppState :=
  { s with
    matchRows := s.matchRows.map (fun x =>
      if x.id = m.id then { x with result := some MatchResult.Cancel } else x) }

/-- All fields of a match row other than `result`. -/
def matchFrame (x : Match) :
    ℤ × List ℤ × List ℤ × List ℤ × List ℤ × Option (List ℤ) × Option (List ℤ) :=
  (x.id, x.team_a_players, x.team_b_players, x.team_a_elos, x.team_b_elos,
    x.team_a_new_elos, x.team_b_new_elos)

/-! ## suggestTeams (partition search) -/

/-- `const total = Math.min(available.length, 10)`. -/
def totalOf (available : List Player) : ℕ :=
  min available.length 10

/-- `const sizeA = Math.ceil(total / 2)`. -/
def sizeAOf (available : List Player) : ℕ :=
  (totalOf available + 1) / 2

/-- Sum of Elo ratings of a player list (`sumBy(available, p => p.elo)`). -/
def eloSum (l : List Player) : ℤ :=
  (l.map Player.elo).sum

/-- `const target = (totalElo * sizeA) / total` — note `totalElo` is summed
over the whole `available` pool, not over the sampled candidates. -/
def targetOf (available : List Player) : ℚ :=
  ((eloSum available : ℚ) * (sizeAOf available : ℚ)) / (totalOf available : ℚ)

/-- `candidates.findIndex(p => p.id === n)`, with `none` for `-1`. -/
def anchorIdx (candidates : List Player) (n : ℤ) : Option ℕ :=
  go candidates 0
where
  go : List Player → ℕ → Option ℕ
    | [], _ => none
    | p :: ps, i => if p.id = n then some i else go ps (i + 1)

/-- The pairing constraint applied to a complete subset: when both anchor
indices exist, index `i3` is chosen iff index `i7` is chosen
(`aHas3 !== aHas7` rejects the leaf). -/
def pairingOK (i3 i7 : Option ℕ) (chosen : List ℕ) : Bool :=
  match i3, i7 with
  | some a, some b => decide (a ∈ chosen) == decide (b ∈ chosen)
  | _, _ => true

/-- The mutable state of the DFS: `bestDiff` (`Infinity` initially, hence
`WithTop ℚ`), `bestChoiceIndexes` and the `withinTolerance` pool. -/
structure SearchState where
  bestDiff : WithTop ℚ
  bestChoice : List ℕ
  withinTol : List (List ℕ)
deriving DecidableEq

/-- Parameters fixed during one `suggestTeams` run. -/
structure Ctx where
  sizeA : ℕ
  target : ℚ
  tol : ℚ
  i3 : Option ℕ
  i7 : Option ℕ

/-- Processing of one complete subset (the `chosenIdxs.length === sizeA`
branch of the DFS): reject anchor-splitting subsets, push near-target subsets
into `withinTolerance`, and update the strict best. -/
def leaf (c : Ctx) (chosen : List ℕ) (chosenSum : ℤ) (st : SearchState) : SearchState :=
  if pairingOK c.i3 c.i7 chosen then
    let diff : ℚ := |(chosenSum : ℚ) - c.target|
    let st1 := if diff ≤ c.tol then { st with withinTol := st.withinTol ++ [chosen] } else st
    if (diff : WithTop ℚ) < st1.bestDiff then
      { st1 with bestDiff := (diff : WithTop ℚ), bestChoice := chosen }
    else st1
  else st

/-- The DFS of `suggestTeams`, with the not-yet-visited suffix of the
candidates' Elo list as an explicit argument (`rem = elos.drop index`):
complete subsets are handed to `leaf`; otherwise the branch is pruned when
fewer indices remain than are still needed, and the "include `index`" branch
is explored before the "exclude `index`" branch. -/
def dfs (c : Ctx) : List ℤ → ℕ → List ℕ → ℤ → SearchState → SearchState
  | rem, index, chosen, chosenSum, st =>
    if chosen.length = c.sizeA then leaf c chosen chosenSum st
    else
      match rem with
      | [] => st
      | e :: rest =>
        if ((c.sizeA : ℤ) - chosen.length : ℤ) > (e :: rest).length then st
        else
          let st1 := dfs c rest (index + 1) (chosen ++ [index]) (chosenSum + e) st
          dfs c rest (index + 1) chosen chosenSum st1

/-- The complete subsets visited by `dfs` from a given frame, in traversal
order, paired with their accumulated Elo sums. -/
def completions (sizeA : ℕ) : List ℤ → ℕ → List ℕ → ℤ → List (List ℕ × ℤ)
  | rem, index, chosen, chosenSum =>
    if chosen.length = sizeA then [(chosen, chosenSum)]
    else
      match rem with
      | [] => []
      | e :: rest =>
        if ((sizeA : ℤ) - chosen.length : ℤ) > (e :: rest).length then []
        else
          completions sizeA rest (index + 1) (chosen ++ [index]) (chosenSum + e) ++
            completions sizeA rest (index + 1) chosen chosenSum

/-- `candidates.filter((_, i) => pred i)` — filtering by element index. -/
def fwi (pred : ℕ → Bool) (start : ℕ) : List Player → List Player
  | [] => []
  | x :: xs => if pred start then x :: fwi pred (start + 1) xs else fwi pred (start + 1) xs

/-- The search context built by `suggestTeams` for a given available pool,
sampled candidate list and tolerance. -/
def ctxOf (available candidates : List Player) (tolerance : ℚ) : Ctx :=
  { sizeA := sizeAOf available
    target := targetOf available
    tol := tolerance
    i3 := anchorIdx candidates 3
    i7 := anchorIdx candidates 7 }

/-- The final search state of `dfs(0, [], 0)`. -/
def searchStateOf (available candidates : List Player) (tolerance : ℚ) : SearchState :=
  dfs (ctxOf available candidates tolerance) (candidates.map Player.elo) 0 [] 0
    ⟨⊤, [], []⟩

/-- The selected index subset: a random element of `withinTolerance` when that
pool is non-empty (the random draw is modelled by `k % length`), otherwise
`bestChoiceIndexes`. -/
def pickOf (available candidates : List Player) (tolerance : ℚ) (k : ℕ) : List ℕ :=
  let st := searchStateOf available candidates tolerance
  if st.withinTol.length ≠ 0 then st.withinTol.getD (k % st.withinTol.length) []
  else st.bestChoice

/-- `suggestTeams`: on a pool of fewer than 2 available players both teams are
emptied; otherwise the DFS result splits the sampled candidates by index into
team A (`chosenSet.has(i)`) and team B (the complement).  The sampled
candidate list and the random pick are explicit parameters. -/
def suggestTeams (available candidates : List Player) (tolerance : ℚ) (k : ℕ) :
    List Player × List Player :=
  if totalOf available < 2 then ([], [])
  else
    let pick := pickOf available candidates tolerance k
    (fwi (fun i => decide (i ∈ pick)) 0 candidates,
      fwi (fun i => !decide (i ∈ pick)) 0 candidates)

/-- The Elo sum of the subset of `candidates` selected by the index list `S`
(out-of-range indices contribute 0; the claims only use in-range `S`). -/
def subsetEloSum (candidates : List Player) (S : List ℕ) : ℤ :=
  (S.map (fun j => (candidates.map Player.elo).getD j 0)).sum

/-- The subsets quantified over by the spec's optimality property: index
subsets of the right size, in canonical (strictly increasing) order,
satisfying the anchor-pairing constraint. -/
def ValidSubset (available candidates : List Player) (S : List ℕ) : Prop :=
  S ∈ (List.range candidates.length).sublistsLen (sizeAOf available) ∧
    pairingOK (anchorIdx candidates 3) (anchorIdx candidates 7) S = true

instance (available candidates : List Player) (S : List ℕ) :
    Decidable (ValidSubset available candidates S) := by
  unfold ValidSubset; infer_instance

/-- The Elo contribution of index list `T` inside the suffix `rem` of the
candidates' Elo list that starts at position `index`. -/
def sumFrom (rem : List ℤ) (index : ℕ) (T : List ℕ) : ℤ :=
  (T.map (fun j => rem.getD (j - index) 0)).sum

/-- `Math.abs(chosenSum - target)` for a leaf with accumulated sum `sm`. -/
def diffOf (c : Ctx) (sm : ℤ) : ℚ :=
  |(sm : ℚ) - c.target|

/-- A sample player with the given id and rating (name and statistics are
irrelevant to the search). -/
def samplePlayer (id elo : ℤ) : Player :=
  ⟨id, "", elo, 0, 0⟩

/-- Four equally rated players, no anchors: every half-split is perfectly
balanced, so `withinTolerance` has several entries even at `tolerance = 0`. -/
def tiePool : List Player :=
  [samplePlayer 1 1, samplePlayer 2 1, samplePlayer 4 1, samplePlayer 5 1]

/-- A pool consisting of exactly the two anchor players (ids 3 and 7). -/
def anchorPool : List Player :=
  [samplePlayer 3 1500, samplePlayer 7 1600]

/-- The spec's partition scenario: ratings 1500, 1600, 1400, 1550 (ids chosen
to avoid the anchors). -/
def scenarioPool : List Player :=
  [samplePlayer 1 1500, samplePlayer 2 1600, samplePlayer 11 1400, samplePlayer 4 1550]

/-- A four-player pool containing both anchor players. -/
def anchorPool4 : List Player :=
  [samplePlayer 3 1500, samplePlayer 7 1600, samplePlayer 1 1400, samplePlayer 2 1550]

/-- Three players rated 1, 3 and 2 (no anchors): exactly one size-2 subset
(indices 0 and 1, sum 4) hits the target `6*2/3 = 4`. -/
def uniqueTiePool : List Player :=
  [samplePlayer 1 1, samplePlayer 2 3, samplePlayer 4 2]

/-- Eleven available players: ten rated 0 and one rated 110. -/
def widePool : List Player :=
  (List.range 10).map (fun i => samplePlayer (i + 1) 0) ++ [samplePlayer 20 110]

/-- A sampled candidate list for `widePool`: the ten players rated 0. -/
def wideCandidates : List Player :=
  (List.range 10).map (fun i => samplePlayer (i + 1) 0)

/-- The spec's rating scenario: a team-A player rated 1500 whose opposing
snapshot has mean 1600. -/
def exampleLossMatch : Match :=
  ⟨1, [1], [2], [1500], [1600], none, none, none⟩

/-- A two-player roster for the lifecycle examples. -/
def duoRoster : List Player :=
  [⟨1, "one", 1500, 3, 5⟩, ⟨2, "two", 1600, 4, 6⟩]

/-- A pending match between the two roster players. -/
def pendingMatch : Match :=
  ⟨5, [1], [2], [1500], [1600], none, none, none⟩

/-- The same match already completed (`result = 'A'`). -/
def completedMatch : Match :=
  ⟨5, [1], [2], [1500], [1600], none, none, some MatchResult.A⟩

/-- A match whose team-B participant (id 9) is missing from `duoRoster`. -/
def strayMatch : Match :=
  ⟨6, [1], [9], [1500], [1600], none, none, none⟩

/-- Invariant tying `bestChoice`/`bestDiff` to some already-processed leaf
satisfying `P` (or to the initial "no leaf yet" state). -/
def BestInv (c : Ctx) (P : List ℕ × ℤ → Prop) (st : SearchState) : Prop :=
  (st.bestDiff = ⊤ ∧ st.bestChoice = []) ∨
    ∃ pr, P pr ∧ pairingOK c.i3 c.i7 pr.1 = true ∧ st.bestChoice = pr.1 ∧
      st.bestDiff = (diffOf c pr.2 : WithTop ℚ)

/-- Invariant: every member of `withinTolerance` is an already-processed
accepted leaf within tolerance. -/
def TolInv (c : Ctx) (P : List ℕ × ℤ → Prop) (st : SearchState) : Prop :=
  ∀ S ∈ st.withinTol, ∃ sm, P (S, sm) ∧ pairingOK c.i3 c.i7 S = true ∧
    diffOf c sm ≤ c.tol

/-- Invariant for the strict-`<` best update: after processing the leaves
`proc` (in traversal order), either no leaf was accepted yet, or `bestChoice`
is the first accepted leaf of minimal diff — strictly below every accepted
leaf before it and at most every accepted leaf after it. -/
def FirstMinInv (c : Ctx) (proc : List (List ℕ × ℤ)) (st : SearchState) : Prop :=
  (st.bestDiff = ⊤ ∧ st.bestChoice = [] ∧
    ∀ q ∈ proc, pairingOK c.i3 c.i7 q.1 ≠ true) ∨
  ∃ l₁ pr l₂, proc = l₁ ++ pr :: l₂ ∧ pairingOK c.i3 c.i7 pr.1 = true ∧
    st.bestChoice = pr.1 ∧ st.bestDiff = (diffOf c pr.2 : WithTop ℚ) ∧
    (∀ q ∈ l₁, pairingOK c.i3 c.i7 q.1 = true → diffOf c pr.2 < diffOf c q.2) ∧
    (∀ q ∈ l₂, pairingOK c.i3 c.i7 q.1 = true → diffOf c pr.2 ≤ diffOf c q.2)

/-! ## Lemmas about the DFS -/

/-- The DFS is the left fold of the leaf step over the completions it visits,
in traversal order. -/
theorem dfs_eq_foldl (c : Ctx) (rem : List ℤ) :
    ∀ (index : ℕ) (chosen : List ℕ) (chosenSum : ℤ) (st : SearchState),
      dfs c rem index chosen chosenSum st =
        (completions c.sizeA rem index chosen chosenSum).foldl
          (fun st pr => leaf c pr.1 pr.2 st) st := by
  induction rem with
  | nil =>
    intro index chosen chosenSum st
    rw [dfs, completions]
    by_cases h : chosen.length = c.sizeA <;> simp [h]
  | cons e rest ih =>
    intro index chosen chosenSum st
    rw [dfs, completions]
    by_cases h : chosen.length = c.sizeA
    · simp [h]
    · simp only [if_neg h]
      by_cases hp : ((c.sizeA : ℤ) - (chosen.length : ℤ)) > ((e :: rest).length : ℤ)
      · rw [if_pos hp, if_pos hp]
        simp
      · rw [if_neg hp, if_neg hp, List.foldl_append, ih, ih]

/-- Dropping the head of the suffix shifts the index base of `sumFrom`. -/
theorem sumFrom_shift (e : ℤ) (rest : List ℤ) (index : ℕ) (T : List ℕ)
    (hT : ∀ j ∈ T, index + 1 ≤ j) :
    sumFrom (e :: rest) index T = sumFrom rest (index + 1) T := by
  unfold sumFrom
  congr 1
  refine List.map_congr_left (fun j hj => ?_)
  have h1 : index + 1 ≤ j := hT j hj
  have h2 : j - index = (j - (index + 1)) + 1 := by omega
  rw [h2]
  rfl

/-- Characterisation of the DFS leaves: from the frame `(rem, index, chosen)`
the visited complete subsets are exactly `chosen` extended by a sublist of the
remaining index range of the right size, and the accumulated sum adds that
sublist's Elo contribution. -/
theorem mem_completions (sizeA : ℕ) (rem : List ℤ) :
    ∀ (index : ℕ) (chosen : List ℕ) (chosenSum : ℤ) (S : List ℕ) (sm : ℤ),
      chosen.length ≤ sizeA →
      ((S, sm) ∈ completions sizeA rem index chosen chosenSum ↔
        ∃ T, T.Sublist (List.range' index rem.length) ∧ S = chosen ++ T ∧
          chosen.length + T.length = sizeA ∧ sm = chosenSum + sumFrom rem index T) := by
  induction rem with
  | nil =>
    intro index chosen chosenSum S sm hle
    rw [completions]
    by_cases h : chosen.length = sizeA
    · simp only [if_pos h, List.mem_singleton, Prod.mk.injEq]
      constructor
      · rintro ⟨rfl, rfl⟩
        refine ⟨[], by simp, by simp, by simpa using h, by simp [sumFrom]⟩
      · rintro ⟨T, hsub, rfl, hlen, rfl⟩
        have hT : T = [] := List.sublist_nil.mp (by simpa using hsub)
        subst hT
        simp [sumFrom]
    · simp only [if_neg h]
      constructor
      · intro hmem
        simp at hmem
      · rintro ⟨T, hsub, rfl, hlen, rfl⟩
        have hT : T = [] := List.sublist_nil.mp (by simpa using hsub)
        subst hT
        simp only [List.length_nil, Nat.add_zero] at hlen
        exact absurd hlen h
  | cons e rest ih =>
    intro index chosen chosenSum S sm hle
    rw [completions]
    by_cases h : chosen.length = sizeA
    · simp only [if_pos h, List.mem_singleton, Prod.mk.injEq]
      constructor
      · rintro ⟨rfl, rfl⟩
        exact ⟨[], List.nil_sublist _, by simp, by simpa using h, by simp [sumFrom]⟩
      · rintro ⟨T, hsub, rfl, hlen, rfl⟩
        have : T = [] := by
          have := hlen
          have hT0 : T.length = 0 := by omega
          exact List.length_eq_zero.mp hT0
        subst this
        simp [sumFrom]
    · have hlt : chosen.length < sizeA := lt_of_le_of_ne hle h
      simp only [if_neg h]
      by_cases hp : ((sizeA : ℤ) - (chosen.length : ℤ)) > ((e :: rest).length : ℤ)
      · simp only [if_pos hp]
        constructor
        · intro hmem
          simp at hmem
        · rintro ⟨T, hsub, rfl, hlen, rfl⟩
          have h1 : T.length ≤ rest.length + 1 := by
            have := hsub.length_le
            simpa using this
          simp only [List.length_cons] at hp
          omega
      · simp only [if_neg hp, List.mem_append]
        have hx : (List.range' index (e :: rest).length) =
            index :: List.range' (index + 1) rest.length := by
          simp [List.range'_succ]
        rw [ih (index + 1) (chosen ++ [index]) (chosenSum + e) S sm (by simp; omega),
          ih (index + 1) chosen chosenSum S sm (le_of_lt hlt)]
        constructor
        · rintro (⟨T', hsub, rfl, hlen, rfl⟩ | ⟨T', hsub, rfl, hlen, rfl⟩)
          · refine ⟨index :: T', ?_, by simp, by simp at hlen ⊢; omega, ?_⟩
            · rw [hx]
              exact List.Sublist.cons₂ index hsub
            · have hge : ∀ j ∈ T', index + 1 ≤ j := fun j hj =>
                (List.mem_range'_1.mp (hsub.subset hj)).1
              simp only [sumFrom, List.map_cons, List.sum_cons, Nat.sub_self]
              have : sumFrom (e :: rest) index T' = sumFrom rest (index + 1) T' :=
                sumFrom_shift e rest index T' hge
              simp only [sumFrom] at this
              rw [this]
              simp [List.getD]
              ring
          · refine ⟨T', ?_, rfl, hlen, ?_⟩
            · rw [hx]
              exact hsub.cons index
            · have hge : ∀ j ∈ T', index + 1 ≤ j := fun j hj =>
                (List.mem_range'_1.mp (hsub.subset hj)).1
              rw [sumFrom_shift e rest index T' hge]
        · rintro ⟨T, hsub, rfl, hlen, rfl⟩
          rw [hx] at hsub
          rcases List.sublist_cons_iff.mp hsub with hsub' | ⟨T', rfl, hsub'⟩
          · right
            refine ⟨T, hsub', rfl, hlen, ?_⟩
            have hge : ∀ j ∈ T, index + 1 ≤ j := fun j hj =>
              (List.mem_range'_1.mp (hsub'.subset hj)).1
            rw [sumFrom_shift e rest index T hge]
          · left
            refine ⟨T', hsub', by simp, by simp at hlen ⊢; omega, ?_⟩
            have hge : ∀ j ∈ T', index + 1 ≤ j := fun j hj =>
              (List.mem_range'_1.mp (hsub'.subset hj)).1
            simp only [sumFrom, List.map_cons, List.sum_cons, Nat.sub_self]
            have : sumFrom (e :: rest) index T' = sumFrom rest (index + 1) T' :=
              sumFrom_shift e rest index T' hge
            simp only [sumFrom] at this
            rw [this]
            simp [List.getD]
            ring

/-- The leaf step never increases `bestDiff`. -/
theorem leaf_bestDiff_le_self (c : Ctx) (S : List ℕ) (sm : ℤ) (st : SearchState) :
    (leaf c S sm st).bestDiff ≤ st.bestDiff := by
  simp only [leaf]
  split_ifs with h1 h2 h3 h4 <;> simp_all <;> exact le_of_lt (by assumption)

/-- After processing an accepted leaf, `bestDiff` is at most that leaf's
diff. -/
theorem leaf_bestDiff_le_diff (c : Ctx) (S : List ℕ) (sm : ℤ) (st : SearchState)
    (hp : pairingOK c.i3 c.i7 S = true) :
    (leaf c S sm st).bestDiff ≤ (diffOf c sm : WithTop ℚ) := by
  simp only [leaf, if_pos hp, diffOf]
  split_ifs with h1 h2 h3
  · simp
  · simpa using le_of_not_lt h2
  · simp
  · simpa using le_of_not_lt h3

/-- The fold of the leaf step never increases `bestDiff`. -/
theorem foldl_bestDiff_le_self (c : Ctx) (prs : List (List ℕ × ℤ)) :
    ∀ st : SearchState,
      (prs.foldl (fun st pr => leaf c pr.1 pr.2 st) st).bestDiff ≤ st.bestDiff := by
  induction prs with
  | nil => intro st; exact le_rfl
  | cons hd tl ih =>
    intro st
    exact le_trans (ih (leaf c hd.1 hd.2 st)) (leaf_bestDiff_le_self c hd.1 hd.2 st)

/-- The final `bestDiff` is a lower bound over every accepted leaf. -/
theorem foldl_bestDiff_le (c : Ctx) (prs : List (List ℕ × ℤ)) (st : SearchState)
    (pr : List ℕ × ℤ) (hmem : pr ∈ prs) (hp : pairingOK c.i3 c.i7 pr.1 = true) :
    (prs.foldl (fun st pr => leaf c pr.1 pr.2 st) st).bestDiff ≤
      (diffOf c pr.2 : WithTop ℚ) := by
  obtain ⟨l₁, l₂, rfl⟩ := List.append_of_mem hmem
  rw [List.foldl_append]
  simp only [List.foldl_cons]
  exact le_trans (foldl_bestDiff_le_self c l₂ _)
    (leaf_bestDiff_le_diff c pr.1 pr.2 _ hp)

theorem BestInv_mono {c : Ctx} {P Q : List ℕ × ℤ → Prop} {st : SearchState}
    (h : ∀ pr, P pr → Q pr) (hi : BestInv c P st) : BestInv c Q st := by
  rcases hi with h0 | ⟨pr, hP, hpair, hbc, hbd⟩
  · exact Or.inl h0
  · exact Or.inr ⟨pr, h pr hP, hpair, hbc, hbd⟩

theorem BestInv_congr {c : Ctx} {P : List ℕ × ℤ → Prop} {st st' : SearchState}
    (h1 : st'.bestDiff = st.bestDiff) (h2 : st'.bestChoice = st.bestChoice)
    (hi : BestInv c P st) : BestInv c P st' := by
  rcases hi with ⟨hd, hc⟩ | ⟨pr, hP, hpair, hbc, hbd⟩
  · exact Or.inl ⟨h1.trans hd, h2.trans hc⟩
  · exact Or.inr ⟨pr, hP, hpair, h2.trans hbc, h1.trans hbd⟩

theorem leaf_BestInv {c : Ctx} {P : List ℕ × ℤ → Prop} {st : SearchState}
    (hi : BestInv c P st) (S : List ℕ) (sm : ℤ) :
    BestInv c (fun pr => P pr ∨ pr = (S, sm)) (leaf c S sm st) := by
  by_cases hp : pairingOK c.i3 c.i7 S = true
  · simp only [leaf, if_pos hp]
    split_ifs with h1 h2 h3
    · exact Or.inr ⟨(S, sm), Or.inr rfl, hp, rfl, rfl⟩
    · exact BestInv_congr (by simp) (by simp)
        (BestInv_mono (fun pr h => Or.inl h) hi)
    · exact Or.inr ⟨(S, sm), Or.inr rfl, hp, rfl, rfl⟩
    · exact BestInv_mono (fun pr h => Or.inl h) hi
  · simp only [leaf, if_neg hp]
    exact BestInv_mono (fun pr h => Or.inl h) hi

theorem foldl_BestInv (c : Ctx) (prs : List (List ℕ × ℤ)) :
    ∀ (P : List ℕ × ℤ → Prop) (st : SearchState), BestInv c P st →
      BestInv c (fun pr => P pr ∨ pr ∈ prs)
        (prs.foldl (fun st pr => leaf c pr.1 pr.2 st) st) := by
  induction prs with
  | nil => intro P st hi; exact BestInv_mono (fun pr h => Or.inl h) hi
  | cons hd tl ih =>
    intro P st hi
    have h1 := ih (fun pr => P pr ∨ pr = (hd.1, hd.2)) (leaf c hd.1 hd.2 st)
      (leaf_BestInv hi hd.1 hd.2)
    refine BestInv_mono (fun pr h => ?_) h1
    rcases h with (h | h) | h
    · exact Or.inl h
    · exact Or.inr (by simp [h])
    · exact Or.inr (List.mem_cons_of_mem hd h)

theorem TolInv_mono {c : Ctx} {P Q : List ℕ × ℤ → Prop} {st : SearchState}
    (h : ∀ pr, P pr → Q pr) (hi : TolInv c P st) : TolInv c Q st := by
  intro S hS
  obtain ⟨sm, hP, hpair, hd⟩ := hi S hS
  exact ⟨sm, h _ hP, hpair, hd⟩

theorem leaf_TolInv {c : Ctx} {P : List ℕ × ℤ → Prop} {st : SearchState}
    (hi : TolInv c P st) (S : List ℕ) (sm : ℤ) :
    TolInv c (fun pr => P pr ∨ pr = (S, sm)) (leaf c S sm st) := by
  by_cases hp : pairingOK c.i3 c.i7 S = true
  · simp only [leaf, if_pos hp]
    split_ifs with h1 h2 h3
    all_goals intro S' hS'
    · simp only [SearchState.withinTol] at hS'
      rcases List.mem_append.mp hS' with h | h
      · obtain ⟨sm', hP, hpair, hd⟩ := hi S' h
        exact ⟨sm', Or.inl hP, hpair, hd⟩
      · have hS : S' = S := by simpa using h
        subst hS
        exact ⟨sm, Or.inr rfl, hp, by simpa [diffOf] using h1⟩
    · simp only [SearchState.withinTol] at hS'
      rcases List.mem_append.mp hS' with h | h
      · obtain ⟨sm', hP, hpair, hd⟩ := hi S' h
        exact ⟨sm', Or.inl hP, hpair, hd⟩
      · have hS : S' = S := by simpa using h
        subst hS
        exact ⟨sm, Or.inr rfl, hp, by simpa [diffOf] using h1⟩
    · obtain ⟨sm', hP, hpair, hd⟩ := hi S' hS'
      exact ⟨sm', Or.inl hP, hpair, hd⟩
    · obtain ⟨sm', hP, hpair, hd⟩ := hi S' hS'
      exact ⟨sm', Or.inl hP, hpair, hd⟩
  · simp only [leaf, if_neg hp]
    exact TolInv_mono (fun pr h => Or.inl h) hi

theorem foldl_TolInv (c : Ctx) (prs : List (List ℕ × ℤ)) :
    ∀ (P : List ℕ × ℤ → Prop) (st : SearchState), TolInv c P st →
      TolInv c (fun pr => P pr ∨ pr ∈ prs)
        (prs.foldl (fun st pr => leaf c pr.1 pr.2 st) st) := by
  induction prs with
  | nil => intro P st hi; exact TolInv_mono (fun pr h => Or.inl h) hi
  | cons hd tl ih =>
    intro P st hi
    have h1 := ih (fun pr => P pr ∨ pr = (hd.1, hd.2)) (leaf c hd.1 hd.2 st)
      (leaf_TolInv hi hd.1 hd.2)
    refine TolInv_mono (fun pr h => ?_) h1
    rcases h with (h | h) | h
    · exact Or.inl h
    · exact Or.inr (by simp [h])
    · exact Or.inr (List.mem_cons_of_mem hd h)

/-- The leaf step preserves the first-minimum invariant, recording the new
leaf at the end of the processed prefix. -/
theorem leaf_FirstMinInv {c : Ctx} {proc : List (List ℕ × ℤ)} {st : SearchState}
    (hi : FirstMinInv c proc st) (S : List ℕ) (sm : ℤ) :
    FirstMinInv c (proc ++ [(S, sm)]) (leaf c S sm st) := by
  by_cases hp : pairingOK c.i3 c.i7 S = true
  · simp only [leaf, if_pos hp]
    split_ifs with h1 h2 h3
    · -- within tolerance, strictly better: new best
      rcases hi with ⟨hd, _, hnone⟩ | ⟨l₁, pr₀, l₂, heq, hacc₀, _, hbd, hlt₁, hle₂⟩
      · refine Or.inr ⟨proc, (S, sm), [], by simp, hp, rfl, rfl, ?_, by simp⟩
        exact fun q hq hacc => absurd hacc (hnone q hq)
      · have hlt : diffOf c sm < diffOf c pr₀.2 := by
          have h2' : (diffOf c sm : WithTop ℚ) < (diffOf c pr₀.2 : WithTop ℚ) := by
            simpa [diffOf, hbd] using h2
          exact_mod_cast h2'
        refine Or.inr ⟨proc, (S, sm), [], by simp, hp, rfl, rfl, ?_, by simp⟩
        intro q hq hacc
        rw [heq] at hq
        rcases List.mem_append.mp hq with hq' | hq'
        · exact lt_trans hlt (hlt₁ q hq' hacc)
        · rcases List.mem_cons.mp hq' with rfl | hq''
          · exact hlt
          · exact lt_of_lt_of_le hlt (hle₂ q hq'' hacc)
    · -- within tolerance, not better: best unchanged, leaf joins the suffix
      rcases hi with ⟨hd, _, _⟩ | ⟨l₁, pr₀, l₂, heq, hacc₀, hbc, hbd, hlt₁, hle₂⟩
      · exact absurd (by simp [hd] : (diffOf c sm : WithTop ℚ) < _) h2
      · refine Or.inr ⟨l₁, pr₀, l₂ ++ [(S, sm)], by rw [heq]; simp, hacc₀, hbc, hbd,
          hlt₁, ?_⟩
        intro q hq hacc
        rcases List.mem_append.mp hq with hq' | hq'
        · exact hle₂ q hq' hacc
        · have hqe : q = (S, sm) := by simpa using hq'
          subst hqe
          have h2' : ¬ ((diffOf c sm : WithTop ℚ) < (diffOf c pr₀.2 : WithTop ℚ)) := by
            simpa [diffOf, hbd] using h2
          exact_mod_cast not_lt.mp h2'
    · -- outside tolerance, strictly better: new best
      rcases hi with ⟨hd, _, hnone⟩ | ⟨l₁, pr₀, l₂, heq, hacc₀, _, hbd, hlt₁, hle₂⟩
      · refine Or.inr ⟨proc, (S, sm), [], by simp, hp, rfl, rfl, ?_, by simp⟩
        exact fun q hq hacc => absurd hacc (hnone q hq)
      · have hlt : diffOf c sm < diffOf c pr₀.2 := by
          have h3' : (diffOf c sm : WithTop ℚ) < (diffOf c pr₀.2 : WithTop ℚ) := by
            simpa [diffOf, hbd] using h3
          exact_mod_cast h3'
        refine Or.inr ⟨proc, (S, sm), [], by simp, hp, rfl, rfl, ?_, by simp⟩
        intro q hq hacc
        rw [heq] at hq
        rcases List.mem_append.mp hq with hq' | hq'
        · exact lt_trans hlt (hlt₁ q hq' hacc)
        · rcases List.mem_cons.mp hq' with rfl | hq''
          · exact hlt
          · exact lt_of_lt_of_le hlt (hle₂ q hq'' hacc)
    · -- outside tolerance, not better: best unchanged, leaf joins the suffix
      rcases hi with ⟨hd, _, _⟩ | ⟨l₁, pr₀, l₂, heq, hacc₀, hbc, hbd, hlt₁, hle₂⟩
      · exact absurd (by simp [hd] : (diffOf c sm : WithTop ℚ) < _) h3
      · refine Or.inr ⟨l₁, pr₀, l₂ ++ [(S, sm)], by rw [heq]; simp, hacc₀, hbc, hbd,
          hlt₁, ?_⟩
        intro q hq hacc
        rcases List.mem_append.mp hq with hq' | hq'
        · exact hle₂ q hq' hacc
        · have hqe : q = (S, sm) := by simpa using hq'
          subst hqe
          have h3' : ¬ ((diffOf c sm : WithTop ℚ) < (diffOf c pr₀.2 : WithTop ℚ)) := by
            simpa [diffOf, hbd] using h3
          exact_mod_cast not_lt.mp h3'
  · -- rejected leaf: state unchanged, leaf joins the suffix unaccepted
    simp only [leaf, if_neg hp]
    rcases hi with ⟨hd, hc, hnone⟩ | ⟨l₁, pr₀, l₂, heq, hacc₀, hbc, hbd, hlt₁, hle₂⟩
    · refine Or.inl ⟨hd, hc, ?_⟩
      intro q hq
      rcases List.mem_append.mp hq with hq' | hq'
      · exact hnone q hq'
      · have hqe : q = (S, sm) := by simpa using hq'
        subst hqe
        exact hp
    · refine Or.inr ⟨l₁, pr₀, l₂ ++ [(S, sm)], by rw [heq]; simp, hacc₀, hbc, hbd,
        hlt₁, ?_⟩
      intro q hq hacc
      rcases List.mem_append.mp hq with hq' | hq'
      · exact hle₂ q hq' hacc
      · have hqe : q = (S, sm) := by simpa using hq'
        subst hqe
        exact absurd hacc hp

/-- The fold of the leaf step preserves the first-minimum invariant. -/
theorem foldl_FirstMinInv (c : Ctx) (prs : List (List ℕ × ℤ)) :
    ∀ (proc : List (List ℕ × ℤ)) (st : SearchState), FirstMinInv c proc st →
      FirstMinInv c (proc ++ prs)
        (prs.foldl (fun st pr => leaf c pr.1 pr.2 st) st) := by
  induction prs with
  | nil => intro proc st hi; simpa using hi
  | cons hd tl ih =>
    intro proc st hi
    have h1 := leaf_FirstMinInv hi hd.1 hd.2
    have h2 := ih (proc ++ [(hd.1, hd.2)]) (leaf c hd.1 hd.2 st) h1
    simpa [List.append_assoc] using h2

/-- The search state reached by `suggestTeams` satisfies the first-minimum
invariant over the full traversal: `bestChoice` is either the empty sentinel
(no accepted leaf at all) or the first accepted leaf of minimal diff in
include-before-exclude order. -/
theorem searchStateOf_firstMin (available candidates : List Player) (tolerance : ℚ) :
    FirstMinInv (ctxOf available candidates tolerance)
      (completions (sizeAOf available) (candidates.map Player.elo) 0 [] 0)
      (searchStateOf available candidates tolerance) := by
  have hc : (ctxOf available candidates tolerance).sizeA = sizeAOf available := rfl
  have h0 : FirstMinInv (ctxOf available candidates tolerance) [] ⟨⊤, [], []⟩ :=
    Or.inl ⟨rfl, rfl, by simp⟩
  unfold searchStateOf
  rw [dfs_eq_foldl, hc]
  simpa using foldl_FirstMinInv (ctxOf available candidates tolerance) _ [] _ h0

/-- Root instance of the completions characterisation: the DFS run by
`suggestTeams` visits exactly the index sublists of the right size, with the
matching Elo sums. -/
theorem mem_completions_root (sizeA : ℕ) (elos : List ℤ) (S : List ℕ) (sm : ℤ) :
    (S, sm) ∈ completions sizeA elos 0 [] 0 ↔
      S.Sublist (List.range elos.length) ∧ S.length = sizeA ∧
        sm = sumFrom elos 0 S := by
  rw [mem_completions sizeA elos 0 [] 0 S sm (Nat.zero_le _)]
  rw [List.range_eq_range']
  constructor
  · rintro ⟨T, hsub, rfl, hlen, rfl⟩
    simpa using ⟨hsub, by simpa using hlen⟩
  · rintro ⟨hsub, hlen, rfl⟩
    exact ⟨S, hsub, by simp, by simpa using hlen, by simp⟩

/-- The search state reached by `suggestTeams` satisfies both invariants with
respect to the root completions. -/
theorem searchStateOf_inv (available candidates : List Player) (tolerance : ℚ) :
    BestInv (ctxOf available candidates tolerance)
        (fun pr => pr ∈ completions (sizeAOf available)
          (candidates.map Player.elo) 0 [] 0)
        (searchStateOf available candidates tolerance) ∧
      TolInv (ctxOf available candidates tolerance)
        (fun pr => pr ∈ completions (sizeAOf available)
          (candidates.map Player.elo) 0 [] 0)
        (searchStateOf available candidates tolerance) := by
  have hc : (ctxOf available candidates tolerance).sizeA = sizeAOf available := rfl
  unfold searchStateOf
  rw [dfs_eq_foldl, hc]
  constructor
  · have h0 : BestInv (ctxOf available candidates tolerance) (fun _ => False)
        ⟨⊤, [], []⟩ := Or.inl ⟨rfl, rfl⟩
    exact BestInv_mono (fun pr h => h.resolve_left id) (foldl_BestInv _ _ _ _ h0)
  · have h0 : TolInv (ctxOf available candidates tolerance) (fun _ => False)
        ⟨⊤, [], []⟩ := by
      intro S hS
      simp [SearchState.withinTol] at hS
    exact TolInv_mono (fun pr h => h.resolve_left id) (foldl_TolInv _ _ _ _ h0)

/-- A non-empty `withinTolerance` pool always yields a member of the pool. -/
theorem pick_mem_withinTol (available candidates : List Player) (tolerance : ℚ) (k : ℕ)
    (h : (searchStateOf available candidates tolerance).withinTol ≠ []) :
    pickOf available candidates tolerance k ∈
      (searchStateOf available candidates tolerance).withinTol := by
  unfold pickOf
  have hlen : (searchStateOf available candidates tolerance).withinTol.length ≠ 0 := by
    simpa [List.length_eq_zero] using h
  rw [if_pos hlen]
  have hlt : k % (searchStateOf available candidates tolerance).withinTol.length <
      (searchStateOf available candidates tolerance).withinTol.length :=
    Nat.mod_lt _ (Nat.pos_of_ne_zero hlen)
  rw [List.getD_eq_getElem _ _ hlt]
  exact List.getElem_mem hlt

/-- The subset selected by `suggestTeams` is either the empty sentinel (no
accepted leaf at all) or one of the DFS's accepted leaves. -/
theorem pick_mem_or_nil (available candidates : List Player) (tolerance : ℚ) (k : ℕ) :
    pickOf available candidates tolerance k = [] ∨
      ∃ sm, (pickOf available candidates tolerance k, sm) ∈
          completions (sizeAOf available) (candidates.map Player.elo) 0 [] 0 ∧
        pairingOK (anchorIdx candidates 3) (anchorIdx candidates 7)
          (pickOf available candidates tolerance k) = true := by
  obtain ⟨hbest, htol⟩ := searchStateOf_inv available candidates tolerance
  by_cases h : (searchStateOf available candidates tolerance).withinTol = []
  · unfold pickOf
    rw [if_neg (by simp [h])]
    rcases hbest with ⟨_, hc⟩ | ⟨pr, hmem, hpair, hbc, _⟩
    · exact Or.inl hc
    · exact Or.inr ⟨pr.2, by rwa [hbc], by rwa [hbc]⟩
  · have hmem := pick_mem_withinTol available candidates tolerance k h
    obtain ⟨sm, hP, hpair, _⟩ := htol _ hmem
    exact Or.inr ⟨sm, hP, hpair⟩

/-- At `tolerance = 0`, assuming some accepted leaf exists, the selected
subset is an accepted leaf of globally minimal diff. -/
theorem pick_optimal_tol0 (available candidates : List Player) (k : ℕ)
    (hex : ∃ pr ∈ completions (sizeAOf available) (candidates.map Player.elo) 0 [] 0,
      pairingOK (anchorIdx candidates 3) (anchorIdx candidates 7) pr.1 = true) :
    ∃ sm, (pickOf available candidates 0 k, sm) ∈
        completions (sizeAOf available) (candidates.map Player.elo) 0 [] 0 ∧
      pairingOK (anchorIdx candidates 3) (anchorIdx candidates 7)
        (pickOf available candidates 0 k) = true ∧
      ∀ pr ∈ completions (sizeAOf available) (candidates.map Player.elo) 0 [] 0,
        pairingOK (anchorIdx candidates 3) (anchorIdx candidates 7) pr.1 = true →
          diffOf (ctxOf available candidates 0) sm ≤
            diffOf (ctxOf available candidates 0) pr.2 := by
  obtain ⟨hbest, htol⟩ := searchStateOf_inv available candidates 0
  by_cases h : (searchStateOf available candidates 0).withinTol = []
  · have hpick : pickOf available candidates 0 k =
        (searchStateOf available candidates 0).bestChoice := by
      unfold pickOf
      rw [if_neg (by simp [h])]
    obtain ⟨pr₀, hmem₀, hpair₀⟩ := hex
    have hle := foldl_bestDiff_le (ctxOf available candidates 0) _ ⟨⊤, [], []⟩ pr₀
      hmem₀ hpair₀
    have hst : (searchStateOf available candidates 0).bestDiff ≤
        (diffOf (ctxOf available candidates 0) pr₀.2 : WithTop ℚ) := by
      unfold searchStateOf
      rw [dfs_eq_foldl]
      exact hle
    rcases hbest with ⟨hd, _⟩ | ⟨pr, hmem, hpair, hbc, hbd⟩
    · rw [hd] at hst
      exact absurd hst (by simp)
    · refine ⟨pr.2, by rwa [hpick, hbc], by rwa [hpick, hbc], ?_⟩
      intro pr' hmem' hpair'
      have hle' := foldl_bestDiff_le (ctxOf available candidates 0) _ ⟨⊤, [], []⟩ pr'
        hmem' hpair'
      have hst' : (searchStateOf available candidates 0).bestDiff ≤
          (diffOf (ctxOf available candidates 0) pr'.2 : WithTop ℚ) := by
        unfold searchStateOf
        rw [dfs_eq_foldl]
        exact hle'
      rw [hbd] at hst'
      exact_mod_cast hst'
  · have hmem := pick_mem_withinTol available candidates 0 k h
    obtain ⟨sm, hP, hpair, hd⟩ := htol _ hmem
    refine ⟨sm, hP, hpair, ?_⟩
    intro pr' _ _
    have h0 : diffOf (ctxOf available candidates 0) sm = 0 := by
      have hnn : 0 ≤ diffOf (ctxOf available candidates 0) sm := abs_nonneg _
      have htol0 : (ctxOf available candidates 0).tol = 0 := rfl
      rw [htol0] at hd
      exact le_antisymm hd hnn
    rw [h0]
    exact abs_nonneg _

/-! ## Lemmas about index filtering -/

/-- `fwi` only looks at the predicate on the index range it traverses. -/
theorem fwi_congr (p q : ℕ → Bool) (cs : List Player) :
    ∀ s, (∀ i, s ≤ i → i < s + cs.length → p i = q i) → fwi p s cs = fwi q s cs := by
  induction cs with
  | nil => intro s _; rfl
  | cons x xs ih =>
    intro s h
    have hs : p s = q s := h s le_rfl (by simp)
    have ht : fwi p (s + 1) xs = fwi q (s + 1) xs :=
      ih (s + 1) (fun i h1 h2 => h i (by omega) (by simp only [List.length_cons]; omega))
    simp only [fwi, hs, ht]

/-- A strictly sorted list bounded below that contains its lower bound starts
exactly with it. -/
theorem sorted_head_eq (S : List ℕ) (s : ℕ) (hsort : S.Sorted (· < ·))
    (hb : ∀ j ∈ S, s ≤ j) (hs : s ∈ S) :
    ∃ T, S = s :: T ∧ (∀ j ∈ T, s + 1 ≤ j) ∧ T.Sorted (· < ·) := by
  cases S with
  | nil => simp at hs
  | cons j T =>
    have hj : j = s := by
      rcases List.mem_cons.mp hs with h | h
      · omega
      · have h1 := (List.sorted_cons.mp hsort).1 s h
        have h2 := hb j (by simp)
        omega
    subst hj
    refine ⟨T, rfl, fun t ht => ?_, (List.sorted_cons.mp hsort).2⟩
    have := (List.sorted_cons.mp hsort).1 t ht
    omega

/-- Filtering by membership in a sorted, in-range index list selects exactly
the elements at those indices, in the same order. -/
theorem fwi_sorted_eq (cs : List Player) :
    ∀ (s : ℕ) (S : List ℕ), S.Sorted (· < ·) →
      (∀ j ∈ S, s ≤ j ∧ j < s + cs.length) →
      fwi (fun i => decide (i ∈ S)) s cs =
        S.map (fun j => cs.getD (j - s) default) := by
  induction cs with
  | nil =>
    intro s S _ hb
    cases S with
    | nil => rfl
    | cons j T =>
      have := hb j (by simp)
      simp only [List.length_nil] at this
      omega
  | cons x xs ih =>
    intro s S hsort hb
    by_cases hs : s ∈ S
    · obtain ⟨T, rfl, hT, hTsort⟩ := sorted_head_eq S s hsort (fun j hj => (hb j hj).1) hs
      have hcongr : fwi (fun i => decide (i ∈ s :: T)) (s + 1) xs =
          fwi (fun i => decide (i ∈ T)) (s + 1) xs := by
        refine fwi_congr _ _ xs (s + 1) (fun i h1 _ => ?_)
        have : i ≠ s := by omega
        simp [List.mem_cons, this]
      have htail := ih (s + 1) T hTsort (fun j hj => by
        have h1 := hT j hj
        have h2 := (hb j (List.mem_cons_of_mem s hj)).2
        simp only [List.length_cons] at h2
        exact ⟨h1, by omega⟩)
      simp only [fwi, decide_eq_true_eq]
      rw [if_pos (List.mem_cons_self s T), hcongr, htail]
      simp only [List.map_cons, Nat.sub_self]
      congr 1
      refine List.map_congr_left (fun j hj => ?_)
      have h1 := hT j hj
      have h2 : j - s = (j - (s + 1)) + 1 := by omega
      rw [h2]
      rfl
    · have htail := ih (s + 1) S hsort (fun j hj => by
        have h1 := (hb j hj).1
        have h2 := (hb j hj).2
        have h3 : j ≠ s := fun hjs => hs (hjs ▸ hj)
        simp only [List.length_cons] at h2
        exact ⟨by omega, by omega⟩)
      simp only [fwi, decide_eq_true_eq]
      rw [if_neg hs, htail]
      refine List.map_congr_left (fun j hj => ?_)
      have h1 := (hb j hj).1
      have h3 : j ≠ s := fun hjs => hs (hjs ▸ hj)
      have h2 : j - s = (j - (s + 1)) + 1 := by omega
      rw [h2]
      rfl

/-- An element whose index satisfies the predicate ends up in the filtered
list. -/
theorem fwi_mem (cs : List Player) :
    ∀ (s i : ℕ) (p : ℕ → Bool), i < cs.length → p (s + i) = true →
      cs.getD i default ∈ fwi p s cs := by
  induction cs with
  | nil => intro s i p h; simp at h
  | cons x xs ih =>
    intro s i p h hp
    cases i with
    | zero =>
      simp only [Nat.add_zero] at hp
      simp only [fwi, if_pos hp]
      simp [List.getD]
    | succ n =>
      have hn : n < xs.length := by simpa using h
      have hp' : p ((s + 1) + n) = true := by
        have he : (s + 1) + n = s + (n + 1) := by omega
        rw [he]
        exact hp
      have hmem := ih (s + 1) n p hn hp'
      have hgd : (x :: xs).getD (n + 1) default = xs.getD n default := rfl
      rw [hgd]
      simp only [fwi]
      split_ifs with hq
      · exact List.mem_cons_of_mem x hmem
      · exact hmem

/-- The filtered list and its complement partition the length. -/
theorem fwi_length_add (p : ℕ → Bool) (cs : List Player) :
    ∀ s, (fwi p s cs).length + (fwi (fun i => !p i) s cs).length = cs.length := by
  induction cs with
  | nil => intro s; rfl
  | cons x xs ih =>
    intro s
    simp only [fwi]
    by_cases hp : p s
    · rw [if_pos hp, if_neg (by simp [hp])]
      simp only [List.length_cons]
      have := ih (s + 1)
      omega
    · rw [if_neg hp, if_pos (by simp [Bool.not_eq_true] at hp ⊢; simp [hp])]
      simp only [List.length_cons]
      have := ih (s + 1)
      omega

/-- The filtered list and its complement partition the multiset of
elements. -/
theorem fwi_count_add (p : ℕ → Bool) (y : Player) (cs : List Player) :
    ∀ s, (fwi p s cs).count y + (fwi (fun i => !p i) s cs).count y = cs.count y := by
  induction cs with
  | nil => intro s; rfl
  | cons x xs ih =>
    intro s
    simp only [fwi]
    by_cases hp : p s
    · rw [if_pos hp, if_neg (by simp [hp])]
      simp only [List.count_cons]
      have := ih (s + 1)
      omega
    · rw [if_neg hp, if_pos (by simp [Bool.not_eq_true] at hp ⊢; simp [hp])]
      simp only [List.count_cons]
      have := ih (s + 1)
      omega

/-- Filtering with a constantly-true predicate keeps the whole list. -/
theorem fwi_all_true (cs : List Player) : ∀ s, fwi (fun _ => true) s cs = cs := by
  induction cs with
  | nil => intro s; rfl
  | cons x xs ih => intro s; simp [fwi, ih (s + 1)]

/-! ## Lemmas about the anchor lookup -/

/-- What a successful `findIndex` means. -/
theorem anchorIdx_go_spec (n : ℤ) (l : List Player) :
    ∀ (i a : ℕ), anchorIdx.go n l i = some a →
      i ≤ a ∧ a - i < l.length ∧ (l.getD (a - i) default).id = n := by
  induction l with
  | nil => intro i a h; simp [anchorIdx.go] at h
  | cons x xs ih =>
    intro i a h
    simp only [anchorIdx.go] at h
    by_cases hx : x.id = n
    · rw [if_pos hx] at h
      injection h with h
      subst h
      exact ⟨le_rfl, by simp, by simpa using hx⟩
    · rw [if_neg hx] at h
      obtain ⟨h1, h2, h3⟩ := ih (i + 1) a h
      refine ⟨by omega, by simp only [List.length_cons]; omega, ?_⟩
      have he : a - i = (a - (i + 1)) + 1 := by omega
      rw [he]
      simpa using h3

/-- A successful anchor lookup returns an in-range index holding the id. -/
theorem anchorIdx_spec (cs : List Player) (n : ℤ) (a : ℕ)
    (h : anchorIdx cs n = some a) :
    a < cs.length ∧ (cs.getD a default).id = n := by
  obtain ⟨_, h2, h3⟩ := anchorIdx_go_spec n cs 0 a h
  rw [Nat.sub_zero] at h2 h3
  exact ⟨h2, h3⟩

/-- `findIndex` succeeds when a matching player is present. -/
theorem anchorIdx_go_ne_none (n : ℤ) (l : List Player) :
    ∀ i : ℕ, (∃ p ∈ l, p.id = n) → anchorIdx.go n l i ≠ none := by
  induction l with
  | nil => intro i h; simp at h
  | cons x xs ih =>
    intro i h
    simp only [anchorIdx.go]
    by_cases hx : x.id = n
    · rw [if_pos hx]; simp
    · rw [if_neg hx]
      refine ih (i + 1) ?_
      obtain ⟨p, hp, hid⟩ := h
      rcases List.mem_cons.mp hp with rfl | hp'
      · exact absurd hid hx
      · exact ⟨p, hp', hid⟩

theorem anchorIdx_ne_none (cs : List Player) (n : ℤ)
    (h : ∃ p ∈ cs, p.id = n) : anchorIdx cs n ≠ none :=
  anchorIdx_go_ne_none n cs 0 h

/-- In a list with pairwise distinct ids, an index holding a member's id holds
that member. -/
theorem getD_eq_of_id_nodup (cs : List Player) :
    ∀ a : ℕ, (cs.map Player.id).Nodup → a < cs.length →
      ∀ q ∈ cs, (cs.getD a default).id = q.id → cs.getD a default = q := by
  induction cs with
  | nil => intro a _ ha; simp at ha
  | cons x xs ih =>
    intro a hnd ha q hq hid
    have hnd' : (xs.map Player.id).Nodup := (List.nodup_cons.mp hnd).2
    have hxid : x.id ∉ xs.map Player.id := (List.nodup_cons.mp hnd).1
    rcases List.mem_cons.mp hq with hxq | hq'
    · cases a with
      | zero => exact hxq.symm
      | succ m =>
        have hm : m < xs.length := by simpa using ha
        have hgd : (x :: xs).getD (m + 1) default = xs.getD m default := rfl
        rw [hgd] at hid
        rw [hxq] at hid
        have hmm : xs.getD m default ∈ xs := by
          rw [List.getD_eq_getElem _ _ hm]
          exact List.getElem_mem hm
        exact absurd (hid ▸ List.mem_map_of_mem Player.id hmm) hxid
    · cases a with
      | zero =>
        have hgd : (x :: xs).getD 0 default = x := rfl
        rw [hgd] at hid ⊢
        exact absurd (hid ▸ List.mem_map_of_mem Player.id hq') hxid
      | succ m =>
        have hm : m < xs.length := by simpa using ha
        exact ih m hnd' hm q hq' hid

/-! ## Existence of a valid subset -/

/-- A strictly sorted list of naturals inside `[s, s + n)` is a sublist of
`range' s n`. -/
theorem sorted_sublist_range' :
    ∀ (n : ℕ) (S : List ℕ) (s : ℕ), S.Sorted (· < ·) →
      (∀ j ∈ S, s ≤ j ∧ j < s + n) → S.Sublist (List.range' s n) := by
  intro n
  induction n with
  | zero =>
    intro S s _ hb
    cases S with
    | nil => simp
    | cons j T =>
      have := hb j (by simp)
      omega
  | succ n ih =>
    intro S s hsort hb
    rw [List.range'_succ]
    cases S with
    | nil => exact List.nil_sublist _
    | cons j T =>
      have hj := hb j (by simp)
      by_cases hjs : j = s
      · subst hjs
        refine List.Sublist.cons₂ j ?_
        refine ih T (j + 1) (List.sorted_cons.mp hsort).2 (fun t ht => ?_)
        have h1 := (List.sorted_cons.mp hsort).1 t ht
        have h2 := hb t (List.mem_cons_of_mem j ht)
        omega
      · refine List.Sublist.cons s ?_
        refine ih (j :: T) (s + 1) hsort (fun t ht => ?_)
        rcases List.mem_cons.mp ht with rfl | ht'
        · omega
        · have h1 := (List.sorted_cons.mp hsort).1 t ht'
          have h2 := hb t (List.mem_cons_of_mem j ht')
          omega

/-- Unless the pool is exactly the two anchors as its only two candidates,
some complete subset survives the pairing constraint. -/
theorem exists_valid_subset (available candidates : List Player)
    (hlen : candidates.length = totalOf available) (h2 : 2 ≤ candidates.length)
    (hguard : ¬(candidates.length = 2 ∧ (∃ p ∈ candidates, p.id = 3) ∧
      (∃ p ∈ candidates, p.id = 7))) :
    ∃ pr ∈ completions (sizeAOf available) (candidates.map Player.elo) 0 [] 0,
      pairingOK (anchorIdx candidates 3) (anchorIdx candidates 7) pr.1 = true := by
  have hsz : sizeAOf available = (candidates.length + 1) / 2 := by
    unfold sizeAOf
    rw [hlen]
  have hszle : sizeAOf available ≤ candidates.length := by omega
  -- it suffices to produce an index sublist of the right size passing the
  -- pairing test
  suffices h : ∃ S, S.Sublist (List.range candidates.length) ∧
      S.length = sizeAOf available ∧
      pairingOK (anchorIdx candidates 3) (anchorIdx candidates 7) S = true by
    obtain ⟨S, hsub, hl, hp⟩ := h
    refine ⟨(S, sumFrom (candidates.map Player.elo) 0 S), ?_, hp⟩
    rw [mem_completions_root]
    simpa using ⟨hsub, hl⟩
  cases h3 : anchorIdx candidates 3 with
  | none =>
    refine ⟨List.range (sizeAOf available), ?_, by simp, by simp [pairingOK, h3]⟩
    exact (List.range_sublist).mpr hszle
  | some a =>
    cases h7 : anchorIdx candidates 7 with
    | none =>
      refine ⟨List.range (sizeAOf available), ?_, by simp, by simp [pairingOK, h3, h7]⟩
      exact (List.range_sublist).mpr hszle
    | some b =>
      obtain ⟨ha, haid⟩ := anchorIdx_spec candidates 3 a h3
      obtain ⟨hb, hbid⟩ := anchorIdx_spec candidates 7 b h7
      have hab : a ≠ b := by
        intro he
        rw [he, hbid] at haid
        exact absurd haid (by decide)
      have hmem3 : ∃ p ∈ candidates, p.id = 3 := by
        refine ⟨candidates.getD a default, ?_, haid⟩
        rw [List.getD_eq_getElem _ _ ha]
        exact List.getElem_mem ha
      have hmem7 : ∃ p ∈ candidates, p.id = 7 := by
        refine ⟨candidates.getD b default, ?_, hbid⟩
        rw [List.getD_eq_getElem _ _ hb]
        exact List.getElem_mem hb
      have hn3 : 3 ≤ candidates.length := by
        rcases Nat.lt_or_ge candidates.length 3 with h | h
        · exact absurd ⟨by omega, hmem3, hmem7⟩ hguard
        · exact h
      by_cases hn : candidates.length = 3
      · -- include both anchors
        have hsz2 : sizeAOf available = 2 := by omega
        refine ⟨if a < b then [a, b] else [b, a], ?_, ?_, ?_⟩
        · rw [List.range_eq_range']
          split_ifs with hord
          · exact sorted_sublist_range' candidates.length [a, b] 0
              (by simp [hord]) (by intro j hj; simp at hj; rcases hj with rfl | rfl <;> omega)
          · exact sorted_sublist_range' candidates.length [b, a] 0
              (by simp; omega) (by intro j hj; simp at hj; rcases hj with rfl | rfl <;> omega)
        · split_ifs <;> simp [hsz2]
        · split_ifs <;> simp [pairingOK, h3, h7]
      · -- n ≥ 4: exclude both anchors
        have hn4 : 4 ≤ candidates.length := by omega
        have hszle2 : sizeAOf available ≤ candidates.length - 2 := by omega
        set E := ((List.range candidates.length).erase a).erase b with hE
        have hndr : (List.range candidates.length).Nodup := List.nodup_range _
        have hbmem : b ∈ (List.range candidates.length).erase a := by
          rw [List.Nodup.mem_erase_iff hndr]
          exact ⟨Ne.symm hab, List.mem_range.mpr hb⟩
        have hElen : E.length = candidates.length - 2 := by
          rw [hE, List.length_erase_of_mem hbmem,
            List.length_erase_of_mem (List.mem_range.mpr ha)]
          simp only [List.length_range]
          omega
        have hanotE : a ∉ E := by
          intro hmem
          have ha2 : a ∈ (List.range candidates.length).erase a :=
            List.erase_subset _ _ hmem
          rw [List.Nodup.mem_erase_iff hndr] at ha2
          exact ha2.1 rfl
        have hbnotE : b ∉ E := by
          intro hmem
          have hnd' : ((List.range candidates.length).erase a).Nodup := hndr.erase a
          rw [List.Nodup.mem_erase_iff hnd'] at hmem
          exact hmem.1 rfl
        refine ⟨E.take (sizeAOf available), ?_, ?_, ?_⟩
        · exact (List.take_sublist _ _).trans
            ((List.erase_sublist _ _).trans (List.erase_sublist _ _))
        · rw [List.length_take, hElen]
          omega
        · have hna : a ∉ E.take (sizeAOf available) :=
            fun hmem => hanotE (List.take_subset _ _ hmem)
          have hnb : b ∉ E.take (sizeAOf available) :=
            fun hmem => hbnotE (List.take_subset _ _ hmem)
          simp [pairingOK, h3, h7, hna, hnb]

/-! ## Bridging the selected subset to the returned teams -/

/-- `availableLength < 2` is the same `total < 2` guard as in the source. -/
theorem totalOf_lt_two_iff (available : List Player) :
    totalOf available < 2 ↔ available.length < 2 := by
  unfold totalOf
  omega

/-- When at least two players are available, team A is the index filter by the
selected subset. -/
theorem suggestTeams_fst (available candidates : List Player) (tolerance : ℚ) (k : ℕ)
    (h : ¬ totalOf available < 2) :
    (suggestTeams available candidates tolerance k).1 =
      fwi (fun i => decide (i ∈ pickOf available candidates tolerance k)) 0 candidates := by
  unfold suggestTeams
  rw [if_neg h]

/-- When at least two players are available, team B is the complementary index
filter. -/
theorem suggestTeams_snd (available candidates : List Player) (tolerance : ℚ) (k : ℕ)
    (h : ¬ totalOf available < 2) :
    (suggestTeams available candidates tolerance k).2 =
      fwi (fun i => !decide (i ∈ pickOf available candidates tolerance k)) 0 candidates := by
  unfold suggestTeams
  rw [if_neg h]

/-- If any subset passes the pairing test, the selected subset is one of the
accepted leaves (for every tolerance and random draw). -/
theorem pick_mem_of_exists (available candidates : List Player) (tolerance : ℚ) (k : ℕ)
    (hex : ∃ pr ∈ completions (sizeAOf available) (candidates.map Player.elo) 0 [] 0,
      pairingOK (anchorIdx candidates 3) (anchorIdx candidates 7) pr.1 = true) :
    ∃ sm, (pickOf available candidates tolerance k, sm) ∈
        completions (sizeAOf available) (candidates.map Player.elo) 0 [] 0 ∧
      pairingOK (anchorIdx candidates 3) (anchorIdx candidates 7)
        (pickOf available candidates tolerance k) = true := by
  obtain ⟨hbest, htol⟩ := searchStateOf_inv available candidates tolerance
  by_cases h : (searchStateOf available candidates tolerance).withinTol = []
  · have hpick : pickOf available candidates tolerance k =
        (searchStateOf available candidates tolerance).bestChoice := by
      unfold pickOf
      rw [if_neg (by simp [h])]
    obtain ⟨pr₀, hmem₀, hpair₀⟩ := hex
    have hst : (searchStateOf available candidates tolerance).bestDiff ≤
        (diffOf (ctxOf available candidates tolerance) pr₀.2 : WithTop ℚ) := by
      unfold searchStateOf
      rw [dfs_eq_foldl]
      exact foldl_bestDiff_le _ _ _ pr₀ hmem₀ hpair₀
    rcases hbest with ⟨hd, _⟩ | ⟨pr, hmem, hpair, hbc, _⟩
    · rw [hd] at hst
      exact absurd hst (by simp)
    · exact ⟨pr.2, by rwa [hpick, hbc], by rwa [hpick, hbc]⟩
  · have hmem := pick_mem_withinTol available candidates tolerance k h
    obtain ⟨sm, hP, hpair, _⟩ := htol _ hmem
    exact ⟨sm, hP, hpair⟩

/-- The Elo sum of the team selected by an in-range index subset equals the
index subset's Elo contribution. -/
theorem eloSum_fwi (candidates : List Player) (S : List ℕ)
    (hsub : S.Sublist (List.range candidates.length)) :
    eloSum (fwi (fun i => decide (i ∈ S)) 0 candidates) =
      sumFrom (candidates.map Player.elo) 0 S := by
  have hsort : S.Sorted (· < ·) :=
    List.Pairwise.sublist hsub (List.sorted_lt_range _)
  have hb : ∀ j ∈ S, 0 ≤ j ∧ j < 0 + candidates.length := fun j hj =>
    ⟨Nat.zero_le _, by simpa using List.mem_range.mp (hsub.subset hj)⟩
  rw [fwi_sorted_eq candidates 0 S hsort hb]
  unfold eloSum sumFrom
  rw [List.map_map]
  refine congrArg List.sum (List.map_congr_left (fun j hj => ?_))
  have hjlt : j < candidates.length := List.mem_range.mp (hsub.subset hj)
  have hjlt' : j < (candidates.map Player.elo).length := by simpa using hjlt
  simp only [Function.comp, Nat.sub_zero]
  rw [List.getD_eq_getElem _ _ hjlt, List.getD_eq_getElem _ _ hjlt',
    List.getElem_map]

/-- The team selected by an in-range index subset has that subset's size. -/
theorem length_fwi (candidates : List Player) (S : List ℕ)
    (hsub : S.Sublist (List.range candidates.length)) :
    (fwi (fun i => decide (i ∈ S)) 0 candidates).length = S.length := by
  have hsort : S.Sorted (· < ·) :=
    List.Pairwise.sublist hsub (List.sorted_lt_range _)
  have hb : ∀ j ∈ S, 0 ≤ j ∧ j < 0 + candidates.length := fun j hj =>
    ⟨Nat.zero_le _, by simpa using List.mem_range.mp (hsub.subset hj)⟩
  rw [fwi_sorted_eq candidates 0 S hsort hb]
  simp

/-- `ValidSubset` in terms of accepted leaves of the DFS. -/
theorem validSubset_iff (available candidates : List Player) (S : List ℕ) :
    ValidSubset available candidates S ↔
      ((S, sumFrom (candidates.map Player.elo) 0 S) ∈
          completions (sizeAOf available) (candidates.map Player.elo) 0 [] 0 ∧
        pairingOK (anchorIdx candidates 3) (anchorIdx candidates 7) S = true) := by
  unfold ValidSubset
  rw [List.mem_sublistsLen, mem_completions_root]
  have hmap : (candidates.map Player.elo).length = candidates.length := by simp
  rw [hmap]
  constructor
  · rintro ⟨⟨hsub, hl⟩, hp⟩
    exact ⟨⟨hsub, hl, rfl⟩, hp⟩
  · rintro ⟨⟨hsub, hl, _⟩, hp⟩
    exact ⟨⟨hsub, hl⟩, hp⟩

/-! ## Claim theorems for the partition search -/

/-- C1: with `tolerance = 0`, for every sampled candidate list with at least 2
candidates, provided some subset of size `⌈n/2⌉` satisfies the pairing
constraint, the returned team A minimises `|sum(A) - target|` over all such
subsets — whichever random draw `k` the run makes. -/
theorem claim_C1_tol0_optimal (available candidates : List Player) (k : ℕ)
    (hlen : candidates.length = totalOf available) (h2 : 2 ≤ candidates.length)
    (hex : ∃ S, ValidSubset available candidates S) :
    ∀ S, ValidSubset available candidates S →
      |(eloSum (suggestTeams available candidates 0 k).1 : ℚ) - targetOf available| ≤
        |(subsetEloSum candidates S : ℚ) - targetOf available| := by
  have hnot : ¬ totalOf available < 2 := by omega
  obtain ⟨S₀, hS₀⟩ := hex
  have hS₀' := (validSubset_iff available candidates S₀).mp hS₀
  have hex' : ∃ pr ∈ completions (sizeAOf available) (candidates.map Player.elo) 0 [] 0,
      pairingOK (anchorIdx candidates 3) (anchorIdx candidates 7) pr.1 = true :=
    ⟨(S₀, sumFrom (candidates.map Player.elo) 0 S₀), hS₀'.1, hS₀'.2⟩
  obtain ⟨sm, hmem, _, hmin⟩ := pick_optimal_tol0 available candidates k hex'
  intro S hS
  have hSc := (validSubset_iff available candidates S).mp hS
  have hminS := hmin _ hSc.1 hSc.2
  have hroot := (mem_completions_root _ _ _ _).mp hmem
  have hpicksub : (pickOf available candidates 0 k).Sublist
      (List.range candidates.length) := by
    have := hroot.1
    simpa using this
  have hsm : sm = sumFrom (candidates.map Player.elo) 0
      (pickOf available candidates 0 k) := hroot.2.2
  rw [suggestTeams_fst available candidates 0 k hnot,
    eloSum_fwi candidates _ hpicksub, ← hsm]
  exact hminS

/-- Witness for C1: the spec's four-player scenario (ratings 1500, 1600,
1400, 1550). -/
theorem claim_C1_witness :
    (scenarioPool.length = totalOf scenarioPool ∧ 2 ≤ scenarioPool.length ∧
      ValidSubset scenarioPool scenarioPool [0, 1]) ∧
    ∀ S, ValidSubset scenarioPool scenarioPool S →
      |(eloSum (suggestTeams scenarioPool scenarioPool 0 0).1 : ℚ) -
          targetOf scenarioPool| ≤
        |(subsetEloSum scenarioPool S : ℚ) - targetOf scenarioPool| :=
  ⟨⟨by with_unfolding_all decide, by with_unfolding_all decide,
      by with_unfolding_all decide⟩,
    claim_C1_tol0_optimal scenarioPool scenarioPool 0
      (by with_unfolding_all decide) (by with_unfolding_all decide)
      ⟨[0, 1], by with_unfolding_all decide⟩⟩

/-- C3 (amended): `suggestTeams` returns two empty teams on a pool of fewer
than 2 players; otherwise — provided the pool is not exactly the two anchors
as its only two candidates — the teams partition the sampled candidates with
`|teamA| = ⌈n/2⌉` and sizes differing by at most 1. -/
theorem claim_C3_split_shape (available candidates : List Player) (tolerance : ℚ) (k : ℕ)
    (hnd : candidates.Nodup)
    (hlen : candidates.length = totalOf available)
    (hguard : ¬(candidates.length = 2 ∧ (∃ p ∈ candidates, p.id = 3) ∧
      (∃ p ∈ candidates, p.id = 7))) :
    (available.length < 2 → suggestTeams available candidates tolerance k = ([], [])) ∧
    (2 ≤ available.length →
      (suggestTeams available candidates tolerance k).1.length =
        (candidates.length + 1) / 2 ∧
      (suggestTeams available candidates tolerance k).1.length +
        (suggestTeams available candidates tolerance k).2.length = candidates.length ∧
      |((suggestTeams available candidates tolerance k).1.length : ℤ) -
        ((suggestTeams available candidates tolerance k).2.length : ℤ)| ≤ 1 ∧
      (∀ p : Player, (suggestTeams available candidates tolerance k).1.count p +
        (suggestTeams available candidates tolerance k).2.count p =
          candidates.count p) ∧
      (suggestTeams available candidates tolerance k).1.Disjoint
        (suggestTeams available candidates tolerance k).2) := by
  constructor
  · intro hlt
    unfold suggestTeams
    rw [if_pos ((totalOf_lt_two_iff available).mpr hlt)]
  · intro h2av
    have h2 : 2 ≤ candidates.length := by
      rw [hlen]
      unfold totalOf
      omega
    have hnot : ¬ totalOf available < 2 := by omega
    obtain ⟨sm, hmem, hpair⟩ := pick_mem_of_exists available candidates tolerance k
      (exists_valid_subset available candidates hlen h2 hguard)
    have hroot := (mem_completions_root _ _ _ _).mp hmem
    have hpicksub : (pickOf available candidates tolerance k).Sublist
        (List.range candidates.length) := by simpa using hroot.1
    have hpicklen : (pickOf available candidates tolerance k).length =
        sizeAOf available := hroot.2.1
    have hszA : (suggestTeams available candidates tolerance k).1.length =
        sizeAOf available := by
      rw [suggestTeams_fst _ _ _ _ hnot, length_fwi _ _ hpicksub, hpicklen]
    have hsum : (suggestTeams available candidates tolerance k).1.length +
        (suggestTeams available candidates tolerance k).2.length =
          candidates.length := by
      rw [suggestTeams_fst _ _ _ _ hnot, suggestTeams_snd _ _ _ _ hnot]
      exact fwi_length_add _ candidates 0
    have hsizeval : sizeAOf available = (candidates.length + 1) / 2 := by
      unfold sizeAOf
      rw [hlen]
    have hcnt : ∀ p : Player, (suggestTeams available candidates tolerance k).1.count p +
        (suggestTeams available candidates tolerance k).2.count p =
          candidates.count p := by
      intro p
      rw [suggestTeams_fst _ _ _ _ hnot, suggestTeams_snd _ _ _ _ hnot]
      exact fwi_count_add _ p candidates 0
    refine ⟨by rw [hszA, hsizeval], hsum, ?_, hcnt, ?_⟩
    · rw [abs_le]
      rw [hsizeval] at hszA
      constructor <;> omega
    · intro p hp1 hp2
      have hc1 : (suggestTeams available candidates tolerance k).1.count p ≠ 0 :=
        fun h0 => (List.count_eq_zero.mp h0) hp1
      have hc2 : (suggestTeams available candidates tolerance k).2.count p ≠ 0 :=
        fun h0 => (List.count_eq_zero.mp h0) hp2
      have hle := List.nodup_iff_count_le_one.mp hnd p
      have := hcnt p
      omega

/-- Counterexample for C3 as stated: when the sampled pool is exactly the two
anchors, no subset passes the pairing test, so team A comes back empty instead
of holding `⌈2/2⌉ = 1` player, and the sizes differ by 2. -/
theorem claim_C3_counterexample :
    anchorPool.length = totalOf anchorPool ∧ anchorPool.Nodup ∧
    2 ≤ anchorPool.length ∧
    (suggestTeams anchorPool anchorPool 0 0).1.length = 0 ∧
    (anchorPool.length + 1) / 2 = 1 ∧
    (suggestTeams anchorPool anchorPool 0 0).2.length = 2 := by
  with_unfolding_all decide

/-- Witness for C3: the four-player scenario pool. -/
theorem claim_C3_witness :
    (scenarioPool.Nodup ∧ scenarioPool.length = totalOf scenarioPool ∧
      ¬(scenarioPool.length = 2 ∧ (∃ p ∈ scenarioPool, p.id = 3) ∧
        (∃ p ∈ scenarioPool, p.id = 7)) ∧ 2 ≤ scenarioPool.length) ∧
    ((suggestTeams scenarioPool scenarioPool 0 0).1.length =
        (scenarioPool.length + 1) / 2 ∧
      (suggestTeams scenarioPool scenarioPool 0 0).1.length +
        (suggestTeams scenarioPool scenarioPool 0 0).2.length = scenarioPool.length ∧
      |((suggestTeams scenarioPool scenarioPool 0 0).1.length : ℤ) -
        ((suggestTeams scenarioPool scenarioPool 0 0).2.length : ℤ)| ≤ 1 ∧
      (∀ p : Player, (suggestTeams scenarioPool scenarioPool 0 0).1.count p +
        (suggestTeams scenarioPool scenarioPool 0 0).2.count p =
          scenarioPool.count p) ∧
      (suggestTeams scenarioPool scenarioPool 0 0).1.Disjoint
        (suggestTeams scenarioPool scenarioPool 0 0).2) :=
  ⟨⟨by with_unfolding_all decide, by with_unfolding_all decide,
      by with_unfolding_all decide, by with_unfolding_all decide⟩,
    (claim_C3_split_shape scenarioPool scenarioPool 0 0
      (by with_unfolding_all decide) (by with_unfolding_all decide)
      (by with_unfolding_all decide)).2 (by with_unfolding_all decide)⟩

/-- C4: whenever both anchor players (ids 3 and 7) are among the sampled
candidates (with pairwise distinct ids), the returned split puts them on the
same team — for every tolerance and random draw. -/
theorem claim_C4_anchors_same_team (available candidates : List Player)
    (tolerance : ℚ) (k : ℕ)
    (hlen : candidates.length = totalOf available)
    (hndid : (candidates.map Player.id).Nodup)
    (q3 q7 : Player) (hq3 : q3 ∈ candidates) (hid3 : q3.id = 3)
    (hq7 : q7 ∈ candidates) (hid7 : q7.id = 7) :
    (q3 ∈ (suggestTeams available candidates tolerance k).1 ∧
      q7 ∈ (suggestTeams available candidates tolerance k).1) ∨
    (q3 ∈ (suggestTeams available candidates tolerance k).2 ∧
      q7 ∈ (suggestTeams available candidates tolerance k).2) := by
  have hne : q3 ≠ q7 := by
    intro he
    rw [he] at hid3
    exact absurd (hid3.symm.trans hid7) (by decide)
  have h2 : 2 ≤ candidates.length := by
    cases candidates with
    | nil => simp at hq3
    | cons x xs =>
      cases xs with
      | nil =>
        have e3 : q3 = x := by simpa using hq3
        have e7 : q7 = x := by simpa using hq7
        exact absurd (e3.trans e7.symm) hne
      | cons y ys =>
        simp only [List.length_cons]
        omega
  have hnot : ¬ totalOf available < 2 := by omega
  have h3ne := anchorIdx_ne_none candidates 3 ⟨q3, hq3, hid3⟩
  have h7ne := anchorIdx_ne_none candidates 7 ⟨q7, hq7, hid7⟩
  cases h3 : anchorIdx candidates 3 with
  | none => exact absurd h3 h3ne
  | some a =>
  cases h7 : anchorIdx candidates 7 with
  | none => exact absurd h7 h7ne
  | some b =>
  obtain ⟨ha, haid⟩ := anchorIdx_spec candidates 3 a h3
  obtain ⟨hb, hbid⟩ := anchorIdx_spec candidates 7 b h7
  have hq3' : candidates.getD a default = q3 :=
    getD_eq_of_id_nodup candidates a hndid ha q3 hq3 (by rw [haid, hid3])
  have hq7' : candidates.getD b default = q7 :=
    getD_eq_of_id_nodup candidates b hndid hb q7 hq7 (by rw [hbid, hid7])
  rcases pick_mem_or_nil available candidates tolerance k with hnil | ⟨sm, hmem, hpair⟩
  · right
    rw [suggestTeams_snd _ _ _ _ hnot, hnil]
    have hall : fwi (fun i => !decide (i ∈ ([] : List ℕ))) 0 candidates = candidates := by
      rw [fwi_congr _ (fun _ => true) candidates 0 (fun i _ _ => by simp)]
      exact fwi_all_true candidates 0
    rw [hall]
    exact ⟨hq3, hq7⟩
  · have hiff : a ∈ pickOf available candidates tolerance k ↔
        b ∈ pickOf available candidates tolerance k := by
      rw [h3, h7] at hpair
      simpa [pairingOK, decide_eq_decide] using hpair
    by_cases hain : a ∈ pickOf available candidates tolerance k
    · left
      rw [suggestTeams_fst _ _ _ _ hnot]
      constructor
      · rw [← hq3']
        exact fwi_mem candidates 0 a _ ha (by simpa using hain)
      · rw [← hq7']
        exact fwi_mem candidates 0 b _ hb (by simpa using hiff.mp hain)
    · right
      rw [suggestTeams_snd _ _ _ _ hnot]
      have hbin : b ∉ pickOf available candidates tolerance k := fun hbmem =>
        hain (hiff.mpr hbmem)
      constructor
      · rw [← hq3']
        exact fwi_mem candidates 0 a _ ha (by simpa using hain)
      · rw [← hq7']
        exact fwi_mem candidates 0 b _ hb (by simpa using hbin)

set_option maxRecDepth 8000 in
/-- Witness for C4: a four-player pool containing both anchors. -/
theorem claim_C4_witness :
    (anchorPool4.length = totalOf anchorPool4 ∧ (anchorPool4.map Player.id).Nodup ∧
      samplePlayer 3 1500 ∈ anchorPool4 ∧ (samplePlayer 3 1500).id = 3 ∧
      samplePlayer 7 1600 ∈ anchorPool4 ∧ (samplePlayer 7 1600).id = 7) ∧
    ((samplePlayer 3 1500 ∈ (suggestTeams anchorPool4 anchorPool4 0 0).1 ∧
      samplePlayer 7 1600 ∈ (suggestTeams anchorPool4 anchorPool4 0 0).1) ∨
    (samplePlayer 3 1500 ∈ (suggestTeams anchorPool4 anchorPool4 0 0).2 ∧
      samplePlayer 7 1600 ∈ (suggestTeams anchorPool4 anchorPool4 0 0).2)) :=
  ⟨⟨by with_unfolding_all decide, by with_unfolding_all decide,
      by with_unfolding_all decide, by with_unfolding_all decide,
      by with_unfolding_all decide, by with_unfolding_all decide⟩,
    claim_C4_anchors_same_team anchorPool4 anchorPool4 0 0
      (by with_unfolding_all decide) (by with_unfolding_all decide)
      (samplePlayer 3 1500) (samplePlayer 7 1600)
      (by with_unfolding_all decide) (by with_unfolding_all decide)
      (by with_unfolding_all decide) (by with_unfolding_all decide)⟩

/-- C6 (amended): at `tolerance = 0`, provided at most one subset of the
required size passing the pairing test hits the target exactly, the run is
independent of the random draw: every run returns the split generated by the
search's `best` subset, where `best` is the first accepted leaf of minimal
diff in include-before-exclude traversal order (or the empty sentinel when no
leaf is accepted).  With two or more distinct zero-diff subsets, the pick
among `withinTolerance` is random and runs on identical input may differ. -/
theorem claim_C6_best_deterministic (available candidates : List Player)
    (huniq : ∀ S ∈ (List.range candidates.length).sublistsLen (sizeAOf available),
      ∀ S' ∈ (List.range candidates.length).sublistsLen (sizeAOf available),
        pairingOK (anchorIdx candidates 3) (anchorIdx candidates 7) S = true →
        pairingOK (anchorIdx candidates 3) (anchorIdx candidates 7) S' = true →
        (subsetEloSum candidates S : ℚ) = targetOf available →
        (subsetEloSum candidates S' : ℚ) = targetOf available → S = S') :
    (∀ k₁ k₂ : ℕ,
      suggestTeams available candidates 0 k₁ = suggestTeams available candidates 0 k₂) ∧
    (∀ k : ℕ, pickOf available candidates 0 k =
      (searchStateOf available candidates 0).bestChoice) ∧
    (((searchStateOf available candidates 0).bestChoice = [] ∧
      ∀ q ∈ completions (sizeAOf available) (candidates.map Player.elo) 0 [] 0,
        pairingOK (anchorIdx candidates 3) (anchorIdx candidates 7) q.1 ≠ true) ∨
    ∃ l₁ pr l₂,
      completions (sizeAOf available) (candidates.map Player.elo) 0 [] 0 =
        l₁ ++ pr :: l₂ ∧
      pairingOK (anchorIdx candidates 3) (anchorIdx candidates 7) pr.1 = true ∧
      (searchStateOf available candidates 0).bestChoice = pr.1 ∧
      (∀ q ∈ l₁,
        pairingOK (anchorIdx candidates 3) (anchorIdx candidates 7) q.1 = true →
          diffOf (ctxOf available candidates 0) pr.2 <
            diffOf (ctxOf available candidates 0) q.2) ∧
      (∀ q ∈ l₂,
        pairingOK (anchorIdx candidates 3) (anchorIdx candidates 7) q.1 = true →
          diffOf (ctxOf available candidates 0) pr.2 ≤
            diffOf (ctxOf available candidates 0) q.2)) := by
  have hzero : ∀ S ∈ (searchStateOf available candidates 0).withinTol,
      S ∈ (List.range candidates.length).sublistsLen (sizeAOf available) ∧
      pairingOK (anchorIdx candidates 3) (anchorIdx candidates 7) S = true ∧
      (subsetEloSum candidates S : ℚ) = targetOf available := by
    intro S hS
    obtain ⟨_, htol⟩ := searchStateOf_inv available candidates 0
    obtain ⟨sm, hmem, hpair, hd⟩ := htol S hS
    have hroot := (mem_completions_root _ _ _ _).mp hmem
    have hsub : S.Sublist (List.range candidates.length) := by simpa using hroot.1
    have h0 : diffOf (ctxOf available candidates 0) sm = 0 :=
      le_antisymm hd (abs_nonneg _)
    have hz : (sm : ℚ) - targetOf available = 0 := abs_eq_zero.mp h0
    refine ⟨List.mem_sublistsLen.mpr ⟨hsub, hroot.2.1⟩, hpair, ?_⟩
    have hz' : (sm : ℚ) = targetOf available := by linarith
    rw [hroot.2.2] at hz'
    exact hz'
  have hpickbest : ∀ k : ℕ, pickOf available candidates 0 k =
      (searchStateOf available candidates 0).bestChoice := by
    intro k
    by_cases hne : (searchStateOf available candidates 0).withinTol = []
    · unfold pickOf
      rw [if_neg (by simp [hne])]
    · have hmemp := pick_mem_withinTol available candidates 0 k hne
      obtain ⟨hpS, hppair, hptgt⟩ := hzero _ hmemp
      obtain ⟨S₀, hS₀⟩ := List.exists_mem_of_ne_nil _ hne
      obtain ⟨hS₀mem, hS₀pair, hS₀tgt⟩ := hzero _ hS₀
      obtain ⟨hbest, _⟩ := searchStateOf_inv available candidates 0
      have hS₀sub := List.mem_sublistsLen.mp hS₀mem
      have hS₀comp : (S₀, sumFrom (candidates.map Player.elo) 0 S₀) ∈
          completions (sizeAOf available) (candidates.map Player.elo) 0 [] 0 := by
        rw [mem_completions_root]
        exact ⟨by simpa using hS₀sub.1, hS₀sub.2, rfl⟩
      have hd₀ : diffOf (ctxOf available candidates 0)
          (sumFrom (candidates.map Player.elo) 0 S₀) = 0 := by
        have hsz : ((sumFrom (candidates.map Player.elo) 0 S₀ : ℤ) : ℚ) -
            targetOf available = 0 := sub_eq_zero.mpr hS₀tgt
        exact abs_eq_zero.mpr hsz
      have hle : (searchStateOf available candidates 0).bestDiff ≤
          (((0 : ℚ)) : WithTop ℚ) := by
        have h := foldl_bestDiff_le (ctxOf available candidates 0) _ ⟨⊤, [], []⟩
          (S₀, sumFrom (candidates.map Player.elo) 0 S₀) hS₀comp hS₀pair
        rw [hd₀] at h
        unfold searchStateOf
        rw [dfs_eq_foldl]
        exact h
      rcases hbest with ⟨hd, _⟩ | ⟨pr, hmem, hpair, hbc, hbd⟩
      · rw [hd] at hle
        exact absurd hle (by simp)
      · have hroot := (mem_completions_root _ _ _ _).mp hmem
        have hprd : diffOf (ctxOf available candidates 0) pr.2 = 0 := by
          have h1 : ((diffOf (ctxOf available candidates 0) pr.2 : ℚ) : WithTop ℚ) ≤
              (((0 : ℚ)) : WithTop ℚ) := hbd ▸ hle
          have h2 : diffOf (ctxOf available candidates 0) pr.2 ≤ 0 := by
            exact_mod_cast h1
          exact le_antisymm h2 (abs_nonneg _)
        have hprtgt : (subsetEloSum candidates pr.1 : ℚ) = targetOf available := by
          have hz := abs_eq_zero.mp hprd
          rw [hroot.2.2] at hz
          exact sub_eq_zero.mp hz
        have hprmem : pr.1 ∈
            (List.range candidates.length).sublistsLen (sizeAOf available) :=
          List.mem_sublistsLen.mpr ⟨by simpa using hroot.1, hroot.2.1⟩
        have hpe := huniq _ hpS _ hprmem hppair hpair hptgt hprtgt
        rw [hbc]
        exact hpe
  refine ⟨?_, hpickbest, ?_⟩
  · intro k₁ k₂
    unfold suggestTeams
    rw [hpickbest k₁, hpickbest k₂]
  · rcases searchStateOf_firstMin available candidates 0 with
      ⟨_, hc, hnone⟩ | ⟨l₁, pr, l₂, heq, hacc, hbc, _, hlt₁, hle₂⟩
    · exact Or.inl ⟨hc, hnone⟩
    · exact Or.inr ⟨l₁, pr, l₂, heq, hacc, hbc, hlt₁, hle₂⟩

set_option maxRecDepth 8000 in
/-- Witness for C6: three players rated 1, 3, 2 — exactly one subset hits the
target 4, so `withinTolerance` is the non-empty singleton `[[0, 1]]` and every
random draw returns the same split. -/
theorem claim_C6_witness :
    (∀ S ∈ (List.range uniqueTiePool.length).sublistsLen (sizeAOf uniqueTiePool),
      ∀ S' ∈ (List.range uniqueTiePool.length).sublistsLen (sizeAOf uniqueTiePool),
        pairingOK (anchorIdx uniqueTiePool 3) (anchorIdx uniqueTiePool 7) S = true →
        pairingOK (anchorIdx uniqueTiePool 3) (anchorIdx uniqueTiePool 7) S' = true →
        (subsetEloSum uniqueTiePool S : ℚ) = targetOf uniqueTiePool →
        (subsetEloSum uniqueTiePool S' : ℚ) = targetOf uniqueTiePool → S = S') ∧
    (searchStateOf uniqueTiePool uniqueTiePool 0).withinTol = [[0, 1]] ∧
    ∀ k₁ k₂ : ℕ, suggestTeams uniqueTiePool uniqueTiePool 0 k₁ =
      suggestTeams uniqueTiePool uniqueTiePool 0 k₂ :=
  ⟨by with_unfolding_all decide, by with_unfolding_all decide,
    (claim_C6_best_deterministic uniqueTiePool uniqueTiePool
      (by with_unfolding_all decide)).1⟩

/-- Counterexample for C6 as stated: with four equally rated players every
half-split has diff 0, and two runs with different random draws return
different splits even at `tolerance = 0`. -/
theorem claim_C6_counterexample :
    suggestTeams tiePool tiePool 0 0 ≠ suggestTeams tiePool tiePool 0 1 := by
  with_unfolding_all decide

/-- C5 (amended): the target is computed from the whole available pool's
total rating.  When at most 10 players are available the sampled candidates
are a permutation of the pool, so this agrees with the candidates-only
formula. -/
theorem claim_C5_target_from_available (available candidates : List Player)
    (hperm : candidates.Perm available) (_h10 : available.length ≤ 10) :
    targetOf available =
      ((eloSum candidates : ℚ) * (sizeAOf available : ℚ)) /
        (totalOf available : ℚ) := by
  have hsum : eloSum candidates = eloSum available :=
    List.Perm.sum_eq (hperm.map Player.elo)
  unfold targetOf
  rw [hsum]

set_option maxRecDepth 8000 in
/-- Witness for C5 (amended): a two-player pool sampled in reverse order. -/
theorem claim_C5_witness :
    (anchorPool.reverse.Perm anchorPool ∧ anchorPool.length ≤ 10) ∧
    targetOf anchorPool =
      ((eloSum anchorPool.reverse : ℚ) * (sizeAOf anchorPool : ℚ)) /
        (totalOf anchorPool : ℚ) :=
  ⟨⟨by with_unfolding_all decide, by with_unfolding_all decide⟩,
    claim_C5_target_from_available anchorPool anchorPool.reverse
      (by with_unfolding_all decide) (by with_unfolding_all decide)⟩

set_option maxRecDepth 8000 in
/-- Counterexample for C5 as stated: with 11 available players (ten rated 0,
one rated 110) and the ten zero-rated ones sampled, the code's target is 55,
not the 0 that the candidates-only formula gives. -/
theorem claim_C5_counterexample :
    widePool = wideCandidates ++ [samplePlayer 20 110] ∧
    wideCandidates.length = totalOf widePool ∧
    targetOf widePool ≠
      ((eloSum wideCandidates : ℚ) * (sizeAOf widePool : ℚ)) /
        (totalOf widePool : ℚ) := by
  with_unfolding_all decide

/-! ## Claim theorems for the match lifecycle -/

/-- C9: `cancelMatch` leaves the player table untouched and changes no match
field other than `result`. -/
theorem claim_C9_cancel_frame (s : AppState) (m : Match) :
    (cancelMatchS s m).players = s.players ∧
    (cancelMatchS s m).matchRows.map matchFrame = s.matchRows.map matchFrame := by
  refine ⟨rfl, ?_⟩
  unfold cancelMatchS
  simp only [List.map_map]
  refine List.map_congr_left (fun x _ => ?_)
  by_cases h : x.id = m.id <;> simp [h, matchFrame, Function.comp]

/-- C7 is violated by the code: `endMatch` and `cancelMatch` read nothing
from the match's current result, so a second completion (or a cancellation of
a completed match) is not rejected — here completing the already-completed
match produces the same rating/statistics writes as completing the pending
one (the totals are bumped again), and cancelling it overwrites the result. -/
theorem claim_C7_no_guard :
    endMatch duoRoster completedMatch Winner.A =
      endMatch duoRoster pendingMatch Winner.A ∧
    (endMatch duoRoster completedMatch Winner.A).upserts.map PRec.id = [1, 2] ∧
    (endMatch duoRoster completedMatch Winner.A).upserts.map PRec.total = [6, 7] ∧
    (cancelMatchS ⟨duoRoster, [completedMatch]⟩ completedMatch).matchRows.map
      Match.result = [some MatchResult.Cancel] := by
  refine ⟨rfl, rfl, rfl, ?_⟩
  with_unfolding_all decide

/-- Element-wise description of the four-list `zipWith`. -/
theorem zipWith4_get? (f : α → β → γ → δ → ε) :
    ∀ (as : List α) (bs : List β) (cs : List γ) (ds : List δ) (i : ℕ)
      (a : α) (b : β) (c : γ) (d : δ),
      as.get? i = some a → bs.get? i = some b → cs.get? i = some c →
      ds.get? i = some d →
      (zipWith4 f as bs cs ds).get? i = some (f a b c d) := by
  intro as
  induction as with
  | nil => intro bs cs ds i a b c d h1; simp at h1
  | cons x xs ih =>
    intro bs cs ds i a b c d h1 h2 h3 h4
    cases bs with
    | nil => simp at h2
    | cons y ys =>
    cases cs with
    | nil => simp at h3
    | cons z zs =>
    cases ds with
    | nil => simp at h4
    | cons w ws =>
    cases i with
    | zero =>
      simp only [List.get?_cons_zero, Option.some.injEq] at h1 h2 h3 h4
      subst h1; subst h2; subst h3; subst h4
      rfl
    | succ n =>
      simp only [List.get?_cons_succ] at h1 h2 h3 h4
      simpa only [zipWith4, List.get?_cons_succ] using ih ys zs ws n a b c d h1 h2 h3 h4

/-- The new-ratings list is index-aligned with the snapshot list. -/
theorem length_teamANewElos (m : Match) (result : Winner) :
    (teamANewElos m result).length = m.team_a_elos.length :=
  List.length_map _ _

/-- The new-ratings list is index-aligned with the snapshot list. -/
theorem length_teamBNewElos (m : Match) (result : Winner) :
    (teamBNewElos m result).length = m.team_b_elos.length :=
  List.length_map _ _

/-- C8: every participant found in the fetched roster gets its total-games
count incremented by one and its win count incremented exactly when its team
won (`side = true` for team A). -/
theorem claim_C8_stats_update (players : List Player) (m : Match) (result : Winner)
    (side : Bool) (i : ℕ) (pid : ℤ) (p : Player)
    (hid : (if side then m.team_a_players else m.team_b_players).get? i = some pid)
    (hp : findPlayer players pid = some p)
    (hlt : i < (if side then m.team_a_elos else m.team_b_elos).length) :
    ((if side then updatedAPlayers players m result
        else updatedBPlayers players m result).get? i).map
      (fun r => (r.id, r.win, r.total)) =
      some (pid,
        (if (if side then result = Winner.A else result = Winner.B)
          then p.win + 1 else p.win),
        p.total + 1) := by
  cases side with
  | true =>
    simp only [eq_self_iff_true, if_true] at hid hlt ⊢
    have hlen : i < (teamANewElos m result).length := by
      rw [length_teamANewElos]
      exact hlt
    have he := List.get?_eq_get hlen
    have hwin : (teamNewWins players m.team_a_players
        (decide (result = Winner.A))).get? i =
        some (if result = Winner.A then p.win + 1 else p.win) := by
      unfold teamNewWins
      rw [List.get?_map, hid]
      simp only [Option.map_some', findPlayer] at hp ⊢
      rw [hp]
      by_cases hr : result = Winner.A <;> simp [hr]
    have htot : (teamNewTotals players m.team_a_players).get? i =
        some (p.total + 1) := by
      unfold teamNewTotals
      rw [List.get?_map, hid]
      simp only [Option.map_some', findPlayer] at hp ⊢
      rw [hp]
    unfold updatedAPlayers
    rw [zipWith4_get? _ _ _ _ _ i pid _ _ _ hid he hwin htot]
    rfl
  | false =>
    simp only [Bool.false_eq_true, if_false] at hid hlt ⊢
    have hlen : i < (teamBNewElos m result).length := by
      rw [length_teamBNewElos]
      exact hlt
    have he := List.get?_eq_get hlen
    have hwin : (teamNewWins players m.team_b_players
        (decide (result = Winner.B))).get? i =
        some (if result = Winner.B then p.win + 1 else p.win) := by
      unfold teamNewWins
      rw [List.get?_map, hid]
      simp only [Option.map_some', findPlayer] at hp ⊢
      rw [hp]
      by_cases hr : result = Winner.B <;> simp [hr]
    have htot : (teamNewTotals players m.team_b_players).get? i =
        some (p.total + 1) := by
      unfold teamNewTotals
      rw [List.get?_map, hid]
      simp only [Option.map_some', findPlayer] at hp ⊢
      rw [hp]
    unfold updatedBPlayers
    rw [zipWith4_get? _ _ _ _ _ i pid _ _ _ hid he hwin htot]
    rfl

set_option maxRecDepth 8000 in
/-- Witness for C8: the winner (team A, found in the roster) goes from 3 wins
in 5 games to 4 in 6; the loser (team B) keeps 4 wins and reaches 7 games. -/
theorem claim_C8_witness :
    (pendingMatch.team_a_players.get? 0 = some 1 ∧
      findPlayer duoRoster 1 = some ⟨1, "one", 1500, 3, 5⟩ ∧
      0 < pendingMatch.team_a_elos.length ∧
      pendingMatch.team_b_players.get? 0 = some 2 ∧
      findPlayer duoRoster 2 = some ⟨2, "two", 1600, 4, 6⟩ ∧
      0 < pendingMatch.team_b_elos.length) ∧
    ((updatedAPlayers duoRoster pendingMatch Winner.A).get? 0).map
      (fun r => (r.id, r.win, r.total)) = some (1, 3 + 1, 5 + 1) ∧
    ((updatedBPlayers duoRoster pendingMatch Winner.A).get? 0).map
      (fun r => (r.id, r.win, r.total)) = some (2, 4, 6 + 1) := by
  refine ⟨⟨by with_unfolding_all decide, by with_unfolding_all decide,
    by with_unfolding_all decide, by with_unfolding_all decide,
    by with_unfolding_all decide, by with_unfolding_all decide⟩, ?_, ?_⟩
  · have h := claim_C8_stats_update duoRoster pendingMatch Winner.A true 0 1
      ⟨1, "one", 1500, 3, 5⟩ (by with_unfolding_all decide)
      (by with_unfolding_all decide) (by with_unfolding_all decide)
    simpa using h
  · have h := claim_C8_stats_update duoRoster pendingMatch Winner.A false 0 2
      ⟨2, "two", 1600, 4, 6⟩ (by with_unfolding_all decide)
      (by with_unfolding_all decide) (by with_unfolding_all decide)
    simpa using h

/-- C10: a participant id absent from the fetched roster is still upserted,
with win count 0 (even on the winning team) and total-games count 1,
overwriting whatever was stored before. -/
theorem claim_C10_missing_participant (players : List Player) (m : Match)
    (result : Winner) (side : Bool) (i : ℕ) (pid : ℤ)
    (hid : (if side then m.team_a_players else m.team_b_players).get? i = some pid)
    (hp : findPlayer players pid = none)
    (hlt : i < (if side then m.team_a_elos else m.team_b_elos).length) :
    ((if side then updatedAPlayers players m result
        else updatedBPlayers players m result).get? i).map
      (fun r => (r.id, r.win, r.total)) = some (pid, 0, 1) := by
  cases side with
  | true =>
    simp only [eq_self_iff_true, if_true] at hid hlt ⊢
    have hlen : i < (teamANewElos m result).length := by
      rw [length_teamANewElos]
      exact hlt
    have he := List.get?_eq_get hlen
    have hwin : (teamNewWins players m.team_a_players
        (decide (result = Winner.A))).get? i = some 0 := by
      unfold teamNewWins
      rw [List.get?_map, hid]
      simp only [Option.map_some', findPlayer] at hp ⊢
      rw [hp]
    have htot : (teamNewTotals players m.team_a_players).get? i = some 1 := by
      unfold teamNewTotals
      rw [List.get?_map, hid]
      simp only [Option.map_some', findPlayer] at hp ⊢
      rw [hp]
    unfold updatedAPlayers
    rw [zipWith4_get? _ _ _ _ _ i pid _ _ _ hid he hwin htot]
    rfl
  | false =>
    simp only [Bool.false_eq_true, if_false] at hid hlt ⊢
    have hlen : i < (teamBNewElos m result).length := by
      rw [length_teamBNewElos]
      exact hlt
    have he := List.get?_eq_get hlen
    have hwin : (teamNewWins players m.team_b_players
        (decide (result = Winner.B))).get? i = some 0 := by
      unfold teamNewWins
      rw [List.get?_map, hid]
      simp only [Option.map_some', findPlayer] at hp ⊢
      rw [hp]
    have htot : (teamNewTotals players m.team_b_players).get? i = some 1 := by
      unfold teamNewTotals
      rw [List.get?_map, hid]
      simp only [Option.map_some', findPlayer] at hp ⊢
      rw [hp]
    unfold updatedBPlayers
    rw [zipWith4_get? _ _ _ _ _ i pid _ _ _ hid he hwin htot]
    rfl

/-! ## Claim theorems for the rating formula -/

/-- `10^(1/4)` is at least `19/11` (since `(19/11)^4 ≤ 10`). -/
theorem rpow_quarter_lb : (19 / 11 : ℝ) ≤ (10 : ℝ) ^ ((1 : ℝ) / 4) := by
  have hkey : ((10 : ℝ) ^ ((1 : ℝ) / 4)) ^ (4 : ℕ) = 10 := by
    rw [← Real.rpow_natCast ((10 : ℝ) ^ ((1 : ℝ) / 4)) 4,
      ← Real.rpow_mul (by norm_num : (0 : ℝ) ≤ 10)]
    norm_num
  refine le_of_pow_le_pow_left (n := 4) (by norm_num)
    (Real.rpow_nonneg (by norm_num) _) ?_
  rw [hkey]
  norm_num

/-- `10^(1/4)` is below `7/3` (since `10 < (7/3)^4`). -/
theorem rpow_quarter_ub : (10 : ℝ) ^ ((1 : ℝ) / 4) < (7 / 3 : ℝ) := by
  have hkey : ((10 : ℝ) ^ ((1 : ℝ) / 4)) ^ (4 : ℕ) = 10 := by
    rw [← Real.rpow_natCast ((10 : ℝ) ^ ((1 : ℝ) / 4)) 4,
      ← Real.rpow_mul (by norm_num : (0 : ℝ) ≤ 10)]
    norm_num
  refine lt_of_pow_lt_pow_left 4 (by norm_num) ?_
  rw [hkey]
  norm_num

/-- The mean of the one-element snapshot `[1600]`. -/
theorem meanL_single : meanL ([1600] : List ℤ) = 1600 := by
  unfold meanL
  norm_num

/-- The spec's numeric scenario: a player rated 1500 losing against opponent
mean 1600 is rounded to 1495. -/
theorem round_loss_1500_1600 :
    round ((1500 : ℝ) + 15 * ((0 : ℝ) -
      1 / (1 + (10 : ℝ) ^ (((1600 : ℝ) - 1500) / 400)))) = 1495 := by
  have hexp : ((1600 : ℝ) - 1500) / 400 = 1 / 4 := by norm_num
  rw [hexp]
  have hlb := rpow_quarter_lb
  have hub := rpow_quarter_ub
  set q := (10 : ℝ) ^ ((1 : ℝ) / 4) with hq
  have hpos : (0 : ℝ) < 1 + q := by linarith
  have h1 : 1 / (1 + q) ≤ 11 / 30 := by
    rw [div_le_div_iff hpos (by norm_num : (0 : ℝ) < 30)]
    linarith
  have h2 : (3 : ℝ) / 10 < 1 / (1 + q) := by
    rw [div_lt_div_iff (by norm_num : (0 : ℝ) < 10) hpos]
    linarith
  rw [round_eq]
  refine Int.floor_eq_iff.mpr ⟨?_, ?_⟩
  · push_cast
    linarith
  · push_cast
    linarith

/-- C2: the rating recorded by `endMatch` for each participant is
`round(r + 15 * (won - E))` with `E = 1 / (1 + 10^((m - r)/400))`, where `r`
is the creation-time snapshot rating and `m` the mean of the opposing team's
creation-time snapshot (never the live roster ratings — `players` does not
occur on either side); the result is an integer by construction (`round`
lands in `ℤ`), and in the spec's scenario a player rated 1500 losing against
mean 1600 gets exactly 1495. -/
theorem claim_C2_rating_formula (players : List Player) (m : Match) (result : Winner) :
    ((∀ i : ℕ, (endMatch players m result).team_a_new_elos.get? i =
        (m.team_a_elos.get? i).map (fun (r : ℤ) =>
          round ((r : ℝ) + 15 * ((if result = Winner.A then (1 : ℝ) else 0) -
            1 / (1 + (10 : ℝ) ^ ((meanL m.team_b_elos - (r : ℝ)) / 400)))))) ∧
      (∀ i : ℕ, (endMatch players m result).team_b_new_elos.get? i =
        (m.team_b_elos.get? i).map (fun (r : ℤ) =>
          round ((r : ℝ) + 15 * ((if result = Winner.B then (1 : ℝ) else 0) -
            1 / (1 + (10 : ℝ) ^ ((meanL m.team_a_elos - (r : ℝ)) / 400))))))) ∧
    (endMatch players exampleLossMatch Winner.B).team_a_new_elos = [1495] := by
  refine ⟨⟨fun i => ?_, fun i => ?_⟩, ?_⟩
  · show (teamANewElos m result).get? i = _
    unfold teamANewElos
    rw [List.get?_map]
    rfl
  · show (teamBNewElos m result).get? i = _
    unfold teamBNewElos
    rw [List.get?_map]
    rfl
  · show teamANewElos exampleLossMatch Winner.B = [1495]
    unfold teamANewElos exampleLossMatch
    simp only [List.map_cons, List.map_nil, List.cons.injEq, and_true]
    unfold updateRating getExpected
    rw [meanL_single]
    rw [if_neg (by decide : ¬ Winner.B = Winner.A)]
    push_cast
    exact round_loss_1500_1600

set_option maxRecDepth 8000 in
/-- Witness for C10: the stray participant (id 9) on the winning team B is
written with 0 wins and 1 total game. -/
theorem claim_C10_witness :
    (strayMatch.team_b_players.get? 0 = some 9 ∧
      findPlayer duoRoster 9 = none ∧ 0 < strayMatch.team_b_elos.length) ∧
    ((updatedBPlayers duoRoster strayMatch Winner.B).get? 0).map
      (fun r => (r.id, r.win, r.total)) = some (9, 0, 1) := by
  refine ⟨⟨by with_unfolding_all decide, by with_unfolding_all decide,
    by with_unfolding_all decide⟩, ?_⟩
  have h := claim_C10_missing_participant duoRoster strayMatch Winner.B false 0 9
    (by with_unfolding_all decide) (by with_unfolding_all decide)
    (by with_unfolding_all decide)
  simpa using h

end WrElo
